import Mathlib

/-!
Verification development for the NUEROSURF browser backend.

Part 1 models the resource-constrained model scheduler of
`src/backend/swarm_router.py` (class `ModelManager`).  Python floats are
modelled as exact rationals: the source only adds, subtracts and compares
VRAM figures, and every configured figure is a small decimal constant
(16.0, 8.0, 3.0, 24.0) on which Python float arithmetic is exact, so the
rational model computes the same values.
-/

/-- The `ModelRole` enumeration of `swarm_router.py`. -/
inductive ModelRole where
  | EXECUTIVE
  | NAVIGATOR
  | EYE
  | CLERK
deriving DecidableEq, Repr, Fintype

/-- The `ModelConfig` dataclass of `swarm_router.py`. -/
structure ModelConfig where
  name : String
  role : ModelRole
  loaded : Bool
  priority : Int
  last_used : ℚ
  vram_estimate_gb : ℚ
deriving DecidableEq, Repr

/-- The mutable state of a `ModelManager`: budget, the `models` dict
(modelled as an insertion-ordered association list, as Python dicts
preserve insertion order), and `current_vram_usage`. -/
structure ModelManager where
  max_vram_gb : ℚ
  models : List (ModelRole × ModelConfig)
  current_vram_usage : ℚ
deriving DecidableEq, Repr

/-- `self.models.get(role)`: first (only) binding of `role` in the dict. -/
def findConfig : List (ModelRole × ModelConfig) → ModelRole → Option ModelConfig
  | [], _ => none
  | (r, c) :: rest, role => if r = role then some c else findConfig rest role

/-- In-place mutation `config.loaded = b` of the entry stored under `role`. -/
def setLoadedFlag (models : List (ModelRole × ModelConfig)) (role : ModelRole)
    (b : Bool) : List (ModelRole × ModelConfig) :=
  models.map (fun p => if p.1 = role then (p.1, { p.2 with loaded := b }) else p)

/-- Body of `_unload_model` once `self.models.get(role)` has been read. -/
def unload_model_found (st : ModelManager) (role : ModelRole) :
    Option ModelConfig → ModelManager
  | none => st
  | some config =>
    if config.loaded then
      { st with
        models := setLoadedFlag st.models role false
        current_vram_usage := st.current_vram_usage - config.vram_estimate_gb }
    else st

/-- `ModelManager._unload_model`: if the role exists and is loaded, clear its
flag and subtract its cost from `current_vram_usage`; otherwise no change. -/
def unload_model (st : ModelManager) (role : ModelRole) : ModelManager :=
  unload_model_found st role (findConfig st.models role)

/-- The list comprehension in `_free_vram` collecting loaded models, in dict
(insertion) order. -/
def loadedModels (st : ModelManager) : List (ModelRole × ModelConfig) :=
  st.models.filter (fun p => p.2.loaded)

/-- `loaded.sort(key=lambda x: x[1].priority)`: Python's sort is stable and
ascending; `List.insertionSort` with this relation is the same stable sort. -/
def sortByPriority (l : List (ModelRole × ModelConfig)) :
    List (ModelRole × ModelConfig) :=
  List.insertionSort (fun a b => a.2.priority ≤ b.2.priority) l

/-- The eviction loop of `_free_vram`: walk the priority-sorted snapshot,
stopping once `freed >= needed_gb`, unloading one model per step and adding
its (snapshot) cost to `freed`. -/
def evictLoop : ModelManager → List (ModelRole × ModelConfig) → ℚ → ℚ →
    ModelManager
  | st, [], _, _ => st
  | st, (role, config) :: rest, freed, needed_gb =>
    if needed_gb ≤ freed then st
    else evictLoop (unload_model st role) rest
      (freed + config.vram_estimate_gb) needed_gb

/-- `ModelManager._free_vram`. -/
def free_vram (st : ModelManager) (needed_gb : ℚ) : ModelManager :=
  evictLoop st (sortByPriority (loadedModels st)) 0 needed_gb

/-- `ModelManager.request_model`: returns the boolean result together with
the post-call state.  Note the source has no failure path once the role
exists: after (best-effort) eviction it always marks the role loaded and
adds its cost. -/
def request_model_found (st : ModelManager) (role : ModelRole) :
    Option ModelConfig → Bool × ModelManager
  | none => (false, st)
  | some config =>
    if config.loaded then (true, st)
    else
      let needed_vram := config.vram_estimate_gb
      let available_vram := st.max_vram_gb - st.current_vram_usage
      let st1 :=
        if available_vram < needed_vram then
          free_vram st (needed_vram - available_vram)
        else st
      (true,
        { st1 with
          models := setLoadedFlag st1.models role true
          current_vram_usage := st1.current_vram_usage + config.vram_estimate_gb })

/-- `ModelManager.request_model` proper: read the descriptor, then run the
admission body above. -/
def request_model (st : ModelManager) (role : ModelRole) :
    Bool × ModelManager :=
  request_model_found st role (findConfig st.models role)

/-- The `DEFAULT_MODELS` table as copied by `initialize()` (fresh configs,
nothing loaded). -/
def defaultModels : List (ModelRole × ModelConfig) :=
  [ (ModelRole.EXECUTIVE,
      { name := "nemotron-3-nano:30b-a3b-q4_K_M", role := ModelRole.EXECUTIVE
        loaded := false, priority := 10, last_used := 0, vram_estimate_gb := 16 }),
    (ModelRole.NAVIGATOR,
      { name := "deepseek-coder-v2:16b", role := ModelRole.NAVIGATOR
        loaded := false, priority := 8, last_used := 0, vram_estimate_gb := 16 }),
    (ModelRole.EYE,
      { name := "llava:latest", role := ModelRole.EYE
        loaded := false, priority := 5, last_used := 0, vram_estimate_gb := 8 }),
    (ModelRole.CLERK,
      { name := "llama3.2:3b", role := ModelRole.CLERK
        loaded := false, priority := 7, last_used := 0, vram_estimate_gb := 3 }) ]

/-- The manager right after `__init__(max_vram_gb)` + `initialize()`:
default models, nothing loaded, zero usage. -/
def initialManager (budget : ℚ) : ModelManager :=
  { max_vram_gb := budget
    models := defaultModels
    current_vram_usage := 0 }

/-- Sum of the costs of all descriptors whose `loaded` flag is set. -/
def sumLoadedCost : List (ModelRole × ModelConfig) → ℚ
  | [] => 0
  | p :: rest =>
    (if p.2.loaded then p.2.vram_estimate_gb else 0) + sumLoadedCost rest

/-- Total cost of a snapshot list of descriptors. -/
def sumCostList (l : List (ModelRole × ModelConfig)) : ℚ :=
  (l.map (fun p => p.2.vram_estimate_gb)).sum

/-- Execute a sequence of `request_model` calls, keeping the final state. -/
def runRequests (st : ModelManager) (rs : List ModelRole) : ModelManager :=
  rs.foldl (fun s r => (request_model s r).2) st

/-- Every configured cost is nonnegative and fits in the budget. -/
def CostsOk (budget : ℚ) (models : List (ModelRole × ModelConfig)) : Prop :=
  ∀ p ∈ models, 0 ≤ p.2.vram_estimate_gb ∧ p.2.vram_estimate_gb ≤ budget

/-- The scheduler's structural invariants: unique dict keys, bookkeeping
usage equal to the loaded-cost sum, well-formed costs, usage within
budget. -/
def GoodManager (st : ModelManager) : Prop :=
  (st.models.map Prod.fst).Nodup ∧
  st.current_vram_usage = sumLoadedCost st.models ∧
  CostsOk st.max_vram_gb st.models ∧
  st.current_vram_usage ≤ st.max_vram_gb

/-- The eviction order described by the spec: walk a list, stopping as soon
as the cumulative freed capacity reaches the deficit, collecting the
descriptors evicted on the way. -/
def greedyEvictedPrefix (needed freed : ℚ) :
    List (ModelRole × ModelConfig) → List (ModelRole × ModelConfig)
  | [] => []
  | p :: rest =>
    if needed ≤ freed then []
    else p :: greedyEvictedPrefix needed (freed + p.2.vram_estimate_gb) rest

/-- The scenario state of claim C3: budget 10, role A = EXECUTIVE
(cost 6, priority 1, loaded), role B = NAVIGATOR (cost 4, priority 2,
loaded), role C = EYE (cost 5, priority 5, not loaded), usage 10. -/
def scenarioManager : ModelManager :=
  { max_vram_gb := 10
    models :=
      [ (ModelRole.EXECUTIVE,
          { name := "A", role := ModelRole.EXECUTIVE, loaded := true
            priority := 1, last_used := 0, vram_estimate_gb := 6 }),
        (ModelRole.NAVIGATOR,
          { name := "B", role := ModelRole.NAVIGATOR, loaded := true
            priority := 2, last_used := 0, vram_estimate_gb := 4 }),
        (ModelRole.EYE,
          { name := "C", role := ModelRole.EYE, loaded := false
            priority := 5, last_used := 0, vram_estimate_gb := 5 }) ]
    current_vram_usage := 10 }

/-!
Part 2 models the agent orchestrator of `src/backend/autonomous_agent.py`
(class `AutonomousAgent` and the module-level singleton `get_agent`).

The standard-library function `json.loads` used by `_extract_tool_calls`
is embedded as a JSON parser over the strict JSON grammar Python accepts
(objects, arrays, strings with escapes, numbers, true/false/null plus the
CPython extensions NaN, Infinity and negative Infinity).  Numbers are represented as
exact rationals: every JSON literal is a finite decimal, and no theorem
below depends on float rounding.
-/

/-- A parsed JSON value as returned by `json.loads`. -/
inductive JValue where
  | jnull
  | jbool (b : Bool)
  | jnum (num : ℚ) (isFloat : Bool)
  | jconst (s : String)
  | jstr (s : String)
  | jarr (items : List JValue)
  | jobj (fields : List (String × JValue))

/-- The four whitespace characters skipped by the JSON grammar. -/
def jsonWs (c : Char) : Bool :=
  c = ' ' || c = '\t' || c = '\n' || c = '\r'

/-- Drop leading JSON whitespace. -/
def skipJsonWs : List Char → List Char
  | [] => []
  | c :: rest => if jsonWs c then skipJsonWs rest else c :: rest

/-- Hexadecimal digit value. -/
def hexVal (c : Char) : Option Nat :=
  if '0' ≤ c ∧ c ≤ '9' then some (c.toNat - '0'.toNat)
  else if 'a' ≤ c ∧ c ≤ 'f' then some (c.toNat - 'a'.toNat + 10)
  else if 'A' ≤ c ∧ c ≤ 'F' then some (c.toNat - 'A'.toNat + 10)
  else none

/-- Parse a JSON string body (after the opening quote), handling the escape
sequences `json.loads` accepts and rejecting raw control characters
(Python strict mode).  `\uXXXX` escapes map to the corresponding code
point; surrogate-pair recombination is not modelled (no input below uses
surrogates). -/
def parseJStringBody : Nat → List Char → List Char → Option (String × List Char)
  | 0, _, _ => none
  | _ + 1, _, [] => none
  | fuel + 1, acc, c :: rest =>
    if c = '"' then some (String.mk acc.reverse, rest)
    else if c = '\\' then
      match rest with
      | [] => none
      | e :: rest2 =>
        if e = '"' then parseJStringBody fuel ('"' :: acc) rest2
        else if e = '\\' then parseJStringBody fuel ('\\' :: acc) rest2
        else if e = '/' then parseJStringBody fuel ('/' :: acc) rest2
        else if e = 'b' then parseJStringBody fuel ('\x08' :: acc) rest2
        else if e = 'f' then parseJStringBody fuel ('\x0c' :: acc) rest2
        else if e = 'n' then parseJStringBody fuel ('\n' :: acc) rest2
        else if e = 'r' then parseJStringBody fuel ('\r' :: acc) rest2
        else if e = 't' then parseJStringBody fuel ('\t' :: acc) rest2
        else if e = 'u' then
          match rest2 with
          | h1 :: h2 :: h3 :: h4 :: rest3 =>
            match hexVal h1, hexVal h2, hexVal h3, hexVal h4 with
            | some a, some b, some c2, some d =>
              parseJStringBody fuel
                (Char.ofNat (((a * 16 + b) * 16 + c2) * 16 + d) :: acc) rest3
            | _, _, _, _ => none
          | _ => none
        else none
    else if c.toNat < 32 then none
    else parseJStringBody fuel (c :: acc) rest

/-- Collect a run of decimal digits. -/
def takeDigits : List Char → List Char × List Char
  | [] => ([], [])
  | c :: rest =>
    if '0' ≤ c ∧ c ≤ '9' then
      let (ds, r) := takeDigits rest
      (c :: ds, r)
    else ([], c :: rest)

/-- Numeric value of a digit list. -/
def digitsToNat : List Char → Nat
  | [] => 0
  | ds => ds.foldl (fun a c => a * 10 + (c.toNat - '0'.toNat)) 0

/-- Parse a JSON number (after an optional leading minus has been noted):
`int [frac] [exp]` with the strict leading-zero rule. -/
def parseNumTail (neg : Bool) (cs : List Char) : Option (JValue × List Char) :=
  match takeDigits cs with
  | ([], _) => none
  | (d :: ds, rest1) =>
    if d = '0' ∧ ds ≠ [] then none
    else
      let intPart : ℚ := (digitsToNat (d :: ds) : ℚ)
      let hasDot : Bool := match rest1 with | '.' :: _ => true | _ => false
      let (fracDigits, rest2, isF1) :=
        match rest1 with
        | '.' :: r =>
          match takeDigits r with
          | ([], _) => ([], rest1, false)
          | (fs, r2) => (fs, r2, true)
        | _ => ([], rest1, false)
      if hasDot && !isF1 then none
      else
        let base : ℚ := intPart +
          (digitsToNat fracDigits : ℚ) / ((10 : ℚ) ^ fracDigits.length)
        match rest2 with
        | e :: r3 =>
          if e = 'e' ∨ e = 'E' then
            let (esign, r4) :=
              match r3 with
              | '+' :: r5 => (false, r5)
              | '-' :: r5 => (true, r5)
              | _ => (false, r3)
            match takeDigits r4 with
            | ([], _) => none
            | (es, r5) =>
              let ev := digitsToNat es
              let scaled : ℚ :=
                if esign then base / ((10 : ℚ) ^ ev) else base * ((10 : ℚ) ^ ev)
              some (JValue.jnum (if neg then -scaled else scaled) true, r5)
          else
            some (JValue.jnum (if neg then -base else base) (isF1), rest2)
        | [] => some (JValue.jnum (if neg then -base else base) (isF1), rest2)
mutual

/-- Parse one JSON value starting at the first non-consumed character
(callers have already skipped leading whitespace). -/
def parseJValue : Nat → List Char → Option (JValue × List Char)
  | 0, _ => none
  | fuel + 1, cs =>
    match cs with
    | [] => none
    | '{' :: rest => parseJObj fuel (skipJsonWs rest)
    | '[' :: rest => parseJArr fuel (skipJsonWs rest)
    | '"' :: rest =>
      match parseJStringBody (rest.length + 1) [] rest with
      | some (s, r) => some (JValue.jstr s, r)
      | none => none
    | '-' :: rest =>
      if [ 'I', 'n', 'f', 'i', 'n', 'i', 't', 'y' ].isPrefixOf rest then
        some (JValue.jconst "-Infinity", rest.drop 8)
      else parseNumTail true rest
    | c :: _ =>
      if [ 't', 'r', 'u', 'e' ].isPrefixOf cs then
        some (JValue.jbool true, cs.drop 4)
      else if [ 'f', 'a', 'l', 's', 'e' ].isPrefixOf cs then
        some (JValue.jbool false, cs.drop 5)
      else if [ 'n', 'u', 'l', 'l' ].isPrefixOf cs then
        some (JValue.jnull, cs.drop 4)
      else if [ 'N', 'a', 'N' ].isPrefixOf cs then
        some (JValue.jconst "NaN", cs.drop 3)
      else if [ 'I', 'n', 'f', 'i', 'n', 'i', 't', 'y' ].isPrefixOf cs then
        some (JValue.jconst "Infinity", cs.drop 8)
      else if '0' ≤ c ∧ c ≤ '9' then parseNumTail false cs
      else none

/-- Parse the inside of an object, whitespace after `{` already skipped. -/
def parseJObj : Nat → List Char → Option (JValue × List Char)
  | 0, _ => none
  | fuel + 1, cs =>
    match cs with
    | '}' :: rest => some (JValue.jobj [], rest)
    | _ => parseJMembers fuel [] cs

/-- Parse `"key": value (, "key": value)* }`, whitespace already skipped. -/
def parseJMembers : Nat → List (String × JValue) → List Char →
    Option (JValue × List Char)
  | 0, _, _ => none
  | fuel + 1, acc, cs =>
    match cs with
    | '"' :: rest =>
      match parseJStringBody (rest.length + 1) [] rest with
      | none => none
      | some (key, r1) =>
        match skipJsonWs r1 with
        | ':' :: r2 =>
          match parseJValue fuel (skipJsonWs r2) with
          | none => none
          | some (v, r3) =>
            match skipJsonWs r3 with
            | ',' :: r4 => parseJMembers fuel ((key, v) :: acc) (skipJsonWs r4)
            | '}' :: r4 => some (JValue.jobj (((key, v) :: acc).reverse), r4)
            | _ => none
        | _ => none
    | _ => none

/-- Parse the inside of an array, whitespace after `[` already skipped. -/
def parseJArr : Nat → List Char → Option (JValue × List Char)
  | 0, _ => none
  | fuel + 1, cs =>
    match cs with
    | ']' :: rest => some (JValue.jarr [], rest)
    | _ => parseJItems fuel [] cs

/-- Parse `value (, value)* ]`, whitespace already skipped. -/
def parseJItems : Nat → List JValue → List Char → Option (JValue × List Char)
  | 0, _, _ => none
  | fuel + 1, acc, cs =>
    match parseJValue fuel cs with
    | none => none
    | some (v, r1) =>
      match skipJsonWs r1 with
      | ',' :: r2 => parseJItems fuel (v :: acc) (skipJsonWs r2)
      | ']' :: r2 => some (JValue.jarr ((v :: acc).reverse), r2)
      | _ => none

end

/-- `json.loads`: parse a complete document, allowing surrounding
whitespace, rejecting trailing data. -/
def loads (s : String) : Option JValue :=
  match parseJValue (s.data.length + 1) (skipJsonWs s.data) with
  | some (v, rest) =>
    match skipJsonWs rest with
    | [] => some v
    | _ => none
  | none => none

/-- `dict.get(k)`: last binding wins, as later duplicate keys overwrite
earlier ones in a Python dict. -/
def lookupLast : List (String × JValue) → String → Option JValue
  | [], _ => none
  | (k0, v0) :: rest, k =>
    match lookupLast rest k with
    | some v => some v
    | none => if k0 = k then some v0 else none

/-- `tool_call.get(key)`: `None` when the value is not a dict or the key is
absent (the extractor only ever produces objects here, since every
candidate substring starts with a brace). -/
def jget (v : JValue) (k : String) : Option JValue :=
  match v with
  | JValue.jobj fields => lookupLast fields k
  | _ => none
/-- The character class of the regex `\s` (Python `re`): space, tab,
newline, carriage return, vertical tab, form feed. -/
def reSpace (c : Char) : Bool :=
  c = ' ' || c = '\t' || c = '\n' || c = '\r' || c = '\x0b' || c = '\x0c'

/-- Drop leading regex whitespace. -/
def skipReSpaces : List Char → List Char
  | [] => []
  | c :: rest => if reSpace c then skipReSpaces rest else c :: rest

/-- After a `}` candidate inside a fenced block: try to match the regex
tail `\s*` followed by three backticks; on success return the remainder
after the closing fence. -/
def fenceTail (cs : List Char) : Option (List Char) :=
  let r := skipReSpaces cs
  if [ '`', '`', '`' ].isPrefixOf r then some (r.drop 3) else none

/-- Scan the body of a fenced block for the non-greedy `.*?\}` of the
pattern: stop at the first `}` whose suffix matches `\s*` and a closing
triple backtick, returning the group content (without braces) and the
remainder after the fence. -/
def scanFencedGroup : Nat → List Char → List Char →
    Option (List Char × List Char)
  | 0, _, _ => none
  | _ + 1, _, [] => none
  | fuel + 1, acc, c :: rest =>
    if c = '}' then
      match fenceTail rest with
      | some rest2 => some (acc.reverse, rest2)
      | none => scanFencedGroup fuel (c :: acc) rest
    else scanFencedGroup fuel (c :: acc) rest

/-- `re.findall` of the fenced-block pattern (triple backtick, `json`,
`\s*`, a braced group found non-greedily, `\s*`, closing triple backtick)
with `re.DOTALL`: all non-overlapping matches in order, resuming after
each full match, advancing one character when the pattern fails at a
position. -/
def findFencedBlocks : Nat → List Char → List String
  | 0, _ => []
  | _ + 1, [] => []
  | fuel + 1, cs@(_ :: restOne) =>
    if [ '`', '`', '`', 'j', 's', 'o', 'n' ].isPrefixOf cs then
      match skipReSpaces (cs.drop 7) with
      | '{' :: body =>
        match scanFencedGroup (body.length + 1) [] body with
        | some (grp, rest2) =>
          String.mk ('{' :: grp ++ [ '}' ]) :: findFencedBlocks fuel rest2
        | none => findFencedBlocks fuel restOne
      | _ => findFencedBlocks fuel restOne
    else findFencedBlocks fuel restOne

/-- The literal invocation marker of method 2. -/
def toolMarker : List Char := [ '{', '"', 't', 'o', 'o', 'l', '"', ':' ]

/-- `response.find(marker, start)`: the suffix beginning at the first
occurrence of the marker, if any. -/
def findSub (pat : List Char) : List Char → Option (List Char)
  | [] => none
  | s@(_ :: rest) => if pat.isPrefixOf s then some s else findSub pat rest

/-- The brace-depth scan of method 2: starting at the marker, track
`open_braces` (+1 for every `{`, -1 for every `}`, no string awareness)
and return the candidate length once the depth reaches zero; `none` when
the text ends first (the for-else `break`). -/
def braceScanLen : Int → Nat → List Char → Option Nat
  | _, _, [] => none
  | d, n, c :: rest =>
    let d1 : Int := if c = '{' then d + 1 else if c = '}' then d - 1 else d
    if d1 = 0 then some (n + 1) else braceScanLen d1 (n + 1) rest

/-- The method-2 `while` loop: find the next marker, brace-scan for the
matching terminator, try `json.loads` on the candidate; in both the
success and the failure case resume scanning right after the terminator
(`start = i + 1`); stop silently when no terminator exists. -/
def method2Scan : Nat → List Char → List JValue
  | 0, _ => []
  | fuel + 1, cs =>
    match findSub toolMarker cs with
    | none => []
    | some suffix =>
      match braceScanLen 0 0 suffix with
      | none => []
      | some len =>
        let rest := suffix.drop len
        match loads (String.mk (suffix.take len)) with
        | some v => v :: method2Scan fuel rest
        | none => method2Scan fuel rest

/-- `AutonomousAgent._extract_tool_calls`: fenced `json` blocks first (all
parse successes, in order); only when that yields nothing, the raw
marker-based brace scan. -/
def extract_tool_calls (response : String) : List JValue :=
  let json_blocks := findFencedBlocks (response.data.length + 1) response.data
  let tool_calls := json_blocks.filterMap loads
  if tool_calls.isEmpty then
    method2Scan (response.data.length + 1) response.data
  else tool_calls

/-- Modelled from the spec: the marker-based scan as the specification
describes it, identical to `method2Scan` except that after a parse
failure scanning resumes one position after the marker rather than after
the matching terminator.  Used only to compare the code against the
claimed resumption rule. -/
def specResumeScan : Nat → List Char → List JValue
  | 0, _ => []
  | fuel + 1, cs =>
    match findSub toolMarker cs with
    | none => []
    | some suffix =>
      match braceScanLen 0 0 suffix with
      | none => []
      | some len =>
        match loads (String.mk (suffix.take len)) with
        | some v => v :: specResumeScan fuel (suffix.drop len)
        | none => specResumeScan fuel (suffix.drop 1)

/-- Modelled from the spec: `extract` with the spec-described resumption
rule in its second phase. -/
def spec_resume_extract (response : String) : List JValue :=
  let json_blocks := findFencedBlocks (response.data.length + 1) response.data
  let tool_calls := json_blocks.filterMap loads
  if tool_calls.isEmpty then
    specResumeScan (response.data.length + 1) response.data
  else tool_calls
/-- Matcher for the first cleanup pattern (a whole fenced `json` block):
on a match at the head of the input, the remainder after the match. -/
def cleanMatchFence (cs : List Char) : Option (List Char) :=
  if [ '`', '`', '`', 'j', 's', 'o', 'n' ].isPrefixOf cs then
    match skipReSpaces (cs.drop 7) with
    | '{' :: body =>
      match scanFencedGroup (body.length + 1) [] body with
      | some (_, rest2) => some rest2
      | none => none
    | _ => none
  else none

/-- The literal `"parameters":` of the second cleanup pattern. -/
def parametersKey : List Char :=
  [ '"', 'p', 'a', 'r', 'a', 'm', 'e', 't', 'e', 'r', 's', '"', ':' ]

/-- Non-greedy scan inside the quoted tool name of the second cleanup
pattern: stop at the first `"` whose suffix matches
`\s*,\s*"parameters":`, returning the remainder after that key. -/
def scanNameThenParams : Nat → List Char → Option (List Char)
  | 0, _ => none
  | _ + 1, [] => none
  | fuel + 1, c :: rest =>
    if c = '"' then
      match skipReSpaces rest with
      | ',' :: r2 =>
        let r3 := skipReSpaces r2
        if parametersKey.isPrefixOf r3 then some (r3.drop 13)
        else scanNameThenParams fuel rest
      | _ => scanNameThenParams fuel rest
    else scanNameThenParams fuel rest

/-- Non-greedy `.*?\}\}`: stop after the first two consecutive closing
braces. -/
def scanToDoubleClose : Nat → List Char → Option (List Char)
  | 0, _ => none
  | _ + 1, [] => none
  | _ + 1, [ _ ] => none
  | fuel + 1, c :: rest@(c2 :: rest2) =>
    if c = '}' ∧ c2 = '}' then some rest2
    else scanToDoubleClose fuel rest

/-- Matcher for the second cleanup pattern
(tool marker, `\s*`, quoted name, `\s*,\s*`, `"parameters":`, `\s*`,
a brace and the non-greedy tail ending in two closing braces). -/
def cleanMatchToolParams (cs : List Char) : Option (List Char) :=
  if toolMarker.isPrefixOf cs then
    match skipReSpaces (cs.drop 8) with
    | '"' :: nameBody =>
      match scanNameThenParams (nameBody.length + 1) nameBody with
      | some afterKey =>
        match skipReSpaces afterKey with
        | '{' :: inner => scanToDoubleClose (inner.length + 2) inner
        | _ => none
      | none => none
    | _ => none
  else none

/-- Non-greedy scan for the third cleanup pattern: the first `"` whose
suffix matches `\s*\}`, returning the remainder after the brace. -/
def scanNameThenClose : Nat → List Char → Option (List Char)
  | 0, _ => none
  | _ + 1, [] => none
  | fuel + 1, c :: rest =>
    if c = '"' then
      match skipReSpaces rest with
      | '}' :: r2 => some r2
      | _ => scanNameThenClose fuel rest
    else scanNameThenClose fuel rest

/-- Matcher for the third cleanup pattern (tool marker, `\s*`, quoted
name, `\s*`, closing brace). -/
def cleanMatchToolClose (cs : List Char) : Option (List Char) :=
  if toolMarker.isPrefixOf cs then
    match skipReSpaces (cs.drop 8) with
    | '"' :: nameBody => scanNameThenClose (nameBody.length + 1) nameBody
    | _ => none
  else none

/-- `re.sub(pattern, '', text)`: delete every non-overlapping match,
scanning left to right and resuming after each match. -/
def subAll (m : List Char → Option (List Char)) : Nat → List Char → List Char
  | 0, cs => cs
  | _ + 1, [] => []
  | fuel + 1, cs@(c :: rest) =>
    match m cs with
    | some rest2 => subAll m fuel rest2
    | none => c :: subAll m fuel rest

/-- `str.strip()` on the ASCII whitespace Python strips (the inputs in
this development are ASCII). -/
def pyStripChars (cs : List Char) : List Char :=
  ((cs.dropWhile reSpace).reverse.dropWhile reSpace).reverse

/-- `AutonomousAgent._clean_response`: delete lingering tool fragments
with the three regex substitutions, then strip, falling back to
"Task completed." when empty. -/
def clean_response (response : String) : String :=
  if response = "" then "Task completed."
  else
    let r1 := subAll cleanMatchFence (response.data.length + 1) response.data
    let r2 := subAll cleanMatchToolParams (r1.length + 1) r1
    let r3 := subAll cleanMatchToolClose (r2.length + 1) r2
    let stripped := pyStripChars r3
    if stripped.isEmpty then "Task completed." else String.mk stripped
/-- The `AGENT_SYSTEM_PROMPT` literal of `autonomous_agent.py`. -/
def AGENT_SYSTEM_PROMPT : String :=
  "You are Neuro, a helpful AI assistant. Be concise.\nRules: Use double newlines between points. For research tasks use web_search then write_research_document to save findings as a formatted document. For math use calculate tool. For vision use webcam_analyze.\nTools are called via JSON: \x7b\"tool\": \"name\", \"parameters\": \x7b...\x7d\x7d\nWait for tool results before concluding."

/-- The `MODEL` constant. -/
def MODEL : String := "qwen2.5:3b"

/-- One entry of `conversation_history` / one Chat-API message. -/
structure Msg where
  role : String
  content : String
deriving DecidableEq, Repr

/-- Mutable state of one `AutonomousAgent` instance. -/
structure AgentState where
  model : String
  max_iterations : Nat
  conversation_history : List Msg
  halt_flag : Bool
  current_task : Option String
  max_history : Nat
deriving DecidableEq, Repr

/-- A freshly constructed `AutonomousAgent()` (default arguments). -/
def newAgent : AgentState :=
  { model := MODEL
    max_iterations := 15
    conversation_history := []
    halt_flag := false
    current_task := none
    max_history := 6 }

/-- Behaviour of one `_call_llm` invocation: either the returned text
(including the literal timeout/connection error strings the method itself
returns) or an exception propagating out of it. -/
inductive GenResult where
  | ok (text : String)
  | err (msg : String)
deriving DecidableEq, Repr

/-- The external world of one `process_task` call: the generation service
(indexed by generation-call count and given the messages list), the
dispatched tool methods (indexed by tool-call count, given name and
parameters, returning the `json.dumps` of the result dict
`execute_tool` returns — total, because `execute_tool` wraps the method
body in try/except and turns unknown tools and failures into error
dicts; the one uncaught raise, the dispatch lookup on an unhashable
tool name, happens before that try and is modelled structurally in
`execute_tool` below), and the cooperative halt schedule —
`haltDuring k` says a concurrent `halt()` lands while iteration `k` is
between its halt-flag check and the next check (the flag is read only at
the top of each loop iteration, so all such timings are equivalent). -/
structure Oracle where
  gen : Nat → List Msg → GenResult
  tool : Nat → Option JValue → JValue → String
  haltDuring : Nat → Bool

/-- Which exit the agentic loop took (ghost instrumentation of the
source control flow: halted break, empty-response break, final-answer
break, exception break, or loop exhaustion). -/
inductive Outcome where
  | halted
  | noResponse
  | completed
  | errored
  | capped
deriving DecidableEq, Repr

/-- Ghost trace of one `process_task` call: for every `_call_llm`
invocation the history snapshot and the messages argument, every
tool-result message appended, and the exit taken. -/
structure TaskTrace where
  genCalls : List (List Msg × List Msg)
  toolMsgs : List Msg
  outcome : Outcome

/-- The dictionary returned by `process_task`, plus the actions list
(tool name, parameters, raw dumped result). -/
structure TaskResult where
  response : String
  actions : List (Option JValue × JValue × String)

/-- Truncation of a tool-result payload before insertion into history. -/
def truncatePayload (s : String) : String :=
  if 500 < s.length then String.mk (s.data.take 500) ++ "...TRUNCATED" else s

mutual

/-- Python `repr` of a parsed JSON value (used via `str()` only for
non-string tool names).  Floats are rendered as their exact decimal,
which coincides with CPython shortest-roundtrip repr on the short
decimals relevant here; no theorem depends on this rendering. -/
def pyRepr : JValue → String
  | JValue.jnull => "None"
  | JValue.jbool true => "True"
  | JValue.jbool false => "False"
  | JValue.jnum q false => toString q.num
  | JValue.jnum q true => toString q.num ++ "/" ++ toString q.den
  | JValue.jconst s =>
    if s = "NaN" then "nan" else if s = "Infinity" then "inf" else "-inf"
  | JValue.jstr s => "\x27" ++ s ++ "\x27"
  | JValue.jarr xs => "[" ++ pyReprList xs ++ "]"
  | JValue.jobj fs => "\x7b" ++ pyReprFields fs ++ "\x7d"

/-- Comma-joined reprs of array items. -/
def pyReprList : List JValue → String
  | [] => ""
  | [ x ] => pyRepr x
  | x :: rest => pyRepr x ++ ", " ++ pyReprList rest

/-- Comma-joined reprs of object fields. -/
def pyReprFields : List (String × JValue) → String
  | [] => ""
  | [ (k, v) ] => "\x27" ++ k ++ "\x27: " ++ pyRepr v
  | (k, v) :: rest => "\x27" ++ k ++ "\x27: " ++ pyRepr v ++ ", " ++ pyReprFields rest

end

/-- The f-string rendering `f"{tool_name}"` of `tool_call.get("tool")`. -/
def pyFormatName : Option JValue → String
  | none => "None"
  | some (JValue.jstr s) => s
  | some v => pyRepr v

/-- The message prepended before every generation call. -/
def sysMsg : Msg := { role := "system", content := AGENT_SYSTEM_PROMPT }

/-- `self.conversation_history[-self._max_history:]`. -/
def windowOf (hist : List Msg) (max_history : Nat) : List Msg :=
  hist.drop (hist.length - max_history)

/-- The action record of one tool call: `tool_call.get("tool")`,
`tool_call.get("parameters", {})`, and the dumped result string the
tool oracle returns for them. -/
def actionOf (ora : Oracle) (tc : Nat) (call : JValue) :
    Option JValue × JValue × String :=
  (jget call "tool", (jget call "parameters").getD (JValue.jobj []),
    ora.tool tc (jget call "tool") ((jget call "parameters").getD (JValue.jobj [])))

/-- The history message appended for one tool call: role `user`, content
`TOOL_RESULT(name): truncated-result`. -/
def toolMsgOf (ora : Oracle) (tc : Nat) (call : JValue) : Msg :=
  { role := "user"
    content := "TOOL_RESULT(" ++ pyFormatName (jget call "tool") ++ "): " ++
      truncatePayload (actionOf ora tc call).2.2 }

/-- Whether `tool_methods.get(tool_name)` can hash the extracted tool
name: JSON objects and arrays arrive as Python dicts and lists, which
are unhashable; every other extracted value (absent key giving `None`,
booleans, numbers, strings) is hashable. -/
def hashableName : Option JValue → Bool
  | some (JValue.jobj _) => false
  | some (JValue.jarr _) => false
  | _ => true

/-- The `str(e)` of the `TypeError` a dict or list tool name raises. -/
def unhashableMsg : Option JValue → String
  | some (JValue.jobj _) => "unhashable type: \x27dict\x27"
  | _ => "unhashable type: \x27list\x27"

/-- `AgentTools.execute_tool`: the dispatch lookup
`tool_methods.get(tool_name)` runs before the try/except, so a dict or
list tool name raises `TypeError` out of `execute_tool`; in every other
case the function returns a dict without raising (unknown tools and
failing tool methods are caught and returned as error dicts), whose
`json.dumps` string the tool oracle supplies. -/
def execute_tool (ora : Oracle) (tc : Nat) (name : Option JValue)
    (params : JValue) : Except String String :=
  if hashableName name then Except.ok (ora.tool tc name params)
  else Except.error (unhashableMsg name)

/-- The inner `for tool_call in tool_calls` loop: execute each call via
`execute_tool`, append its truncated result to history, collect the
action record and the appended message; a raising `execute_tool` aborts
the loop at once, reporting the exception message in the last component
(nothing of the raising call is appended).  Returns the updated state,
the updated tool-call counter, the two accumulators and the escaping
exception, if any. -/
def runTools (ora : Oracle) : Nat → AgentState → List JValue →
    List (Option JValue × JValue × String) → List Msg →
    AgentState × Nat × List (Option JValue × JValue × String) × List Msg ×
      Option String
  | tc, st, [], actions, toolMsgs => (st, tc, actions, toolMsgs, none)
  | tc, st, call :: rest, actions, toolMsgs =>
    match execute_tool ora tc (jget call "tool")
        ((jget call "parameters").getD (JValue.jobj [])) with
    | Except.error e => (st, tc, actions, toolMsgs, some e)
    | Except.ok _ =>
      runTools ora (tc + 1)
        { st with conversation_history :=
            st.conversation_history ++ [ toolMsgOf ora tc call ] }
        rest (actionOf ora tc call :: actions)
        (toolMsgOf ora tc call :: toolMsgs)

/-- The `for iteration in range(self.max_iterations)` loop of
`process_task`.  `remaining` is the number of iterations left, `k` the
number of generation calls issued so far (equal to the iteration index),
`tc` the number of tool executions so far; the last three arguments
accumulate the result and trace in reverse. -/
def agentLoop (ora : Oracle) :
    Nat → Nat → Nat → AgentState →
    List (Option JValue × JValue × String) →
    List (List Msg × List Msg) → List Msg →
    AgentState × TaskResult × TaskTrace
  | 0, _, _, st, actions, genCalls, toolMsgs =>
    (st, { response := "", actions := actions.reverse },
      { genCalls := genCalls.reverse, toolMsgs := toolMsgs.reverse
        outcome := Outcome.capped })
  | remaining + 1, k, tc, st, actions, genCalls, toolMsgs =>
    if st.halt_flag then
      (st, { response := "Task halted by user.", actions := actions.reverse },
        { genCalls := genCalls.reverse, toolMsgs := toolMsgs.reverse
          outcome := Outcome.halted })
    else
      let msgs := sysMsg :: windowOf st.conversation_history st.max_history
      let genCalls1 := (st.conversation_history, msgs) :: genCalls
      match ora.gen k msgs with
      | GenResult.err e =>
        (st, { response := "I encountered an error: " ++ e
               actions := actions.reverse },
          { genCalls := genCalls1.reverse, toolMsgs := toolMsgs.reverse
            outcome := Outcome.errored })
      | GenResult.ok response =>
        if response = "" then
          (st, { response := "I apologize, I couldn\x27t generate a response."
                 actions := actions.reverse },
            { genCalls := genCalls1.reverse, toolMsgs := toolMsgs.reverse
              outcome := Outcome.noResponse })
        else
          match extract_tool_calls response with
          | [] =>
            let st1 := { st with conversation_history :=
              st.conversation_history ++
                [ { role := "assistant", content := response } ] }
            (st1, { response := clean_response response
                    actions := actions.reverse },
              { genCalls := genCalls1.reverse, toolMsgs := toolMsgs.reverse
                outcome := Outcome.completed })
          | c :: cs =>
            let r := runTools ora tc st (c :: cs) actions toolMsgs
            match r.2.2.2.2 with
            | some e =>
              (r.1, { response := "I encountered an error: " ++ e
                      actions := r.2.2.1.reverse },
                { genCalls := genCalls1.reverse
                  toolMsgs := r.2.2.2.1.reverse
                  outcome := Outcome.errored })
            | none =>
              agentLoop ora remaining (k + 1) r.2.1
                { r.1 with halt_flag := r.1.halt_flag || ora.haltDuring k }
                r.2.2.1 genCalls1 r.2.2.2.1

/-- `AutonomousAgent.process_task`: clear the halt flag, record the
current task, append the user message, then run the agentic loop.
(The fire-and-forget memory-store writes are external side effects with
no influence on agent state and are not modelled.) -/
def process_task (ora : Oracle) (st : AgentState) (task : String) :
    AgentState × TaskResult × TaskTrace :=
  let st1 := { st with halt_flag := false, current_task := some task }
  let st2 := { st1 with conversation_history :=
    st1.conversation_history ++ [ { role := "user", content := task } ] }
  agentLoop ora st.max_iterations 0 0 st2 [] [] []

/-- `AutonomousAgent.halt`. -/
def halt (st : AgentState) : AgentState :=
  { st with halt_flag := true, current_task := none }

/-- `AutonomousAgent.clear_history`. -/
def clear_history (st : AgentState) : AgentState :=
  { st with conversation_history := [] }

/-- Python dict read on the module-global `thread_agents` mapping of
`main.py` (`thread_id in thread_agents` / `thread_agents[thread_id]`):
first matching key, keys unique by construction. -/
def dictGet : List (String × AgentState) → String → Option AgentState
  | [], _ => none
  | (k, v) :: rest, key => if k = key then some v else dictGet rest key

/-- Python dict write `thread_agents[key] = v`: overwrite the existing
binding in place, otherwise append (insertion order preserved). -/
def dictSet : List (String × AgentState) → String → AgentState →
    List (String × AgentState)
  | [], key, v => [ (key, v) ]
  | (k, w) :: rest, key, v =>
    if k = key then (k, v) :: rest else (k, w) :: dictSet rest key v

/-- `if thread_id not in thread_agents: thread_agents[thread_id] =
AutonomousAgent(memory_store=memory_store)` followed by
`current_agent = thread_agents[thread_id]`: each thread identifier gets
its own agent, created fresh on its first command. -/
def fetchThreadAgent (ta : List (String × AgentState))
    (thread_id : String) : AgentState × List (String × AgentState) :=
  match dictGet ta thread_id with
  | some a => (a, ta)
  | none => (newAgent, dictSet ta thread_id newAgent)

/-- One `agent:command` event routed to the autonomous agent: fetch (or
create) the thread identifier's agent, run `process_task` on it, and
keep the mutated agent under the same identifier (in CPython the dict
holds the mutated object itself). -/
def processForThread (ora : Oracle) (ta : List (String × AgentState))
    (thread_id command : String) :
    (TaskResult × TaskTrace) × List (String × AgentState) :=
  let f := fetchThreadAgent ta thread_id
  let r := process_task ora f.1 command
  ((r.2.1, r.2.2), dictSet f.2 thread_id r.1)

/-- The halt route of `main.py`: `if thread_id in thread_agents:
thread_agents[thread_id].halt()`. -/
def haltThread (ta : List (String × AgentState)) (thread_id : String) :
    List (String × AgentState) :=
  match dictGet ta thread_id with
  | some a => dictSet ta thread_id (halt a)
  | none => ta

/-- The conversation history a thread identifier observes (empty until
its agent exists). -/
def threadHistory (ta : List (String × AgentState))
    (thread_id : String) : List Msg :=
  match dictGet ta thread_id with
  | some a => a.conversation_history
  | none => []

/-- The cancellation flag of a thread identifier's agent (clear until
the agent exists). -/
def threadHalt (ta : List (String × AgentState)) (thread_id : String) :
    Bool :=
  match dictGet ta thread_id with
  | some a => a.halt_flag
  | none => false

/-- Shape of every tool-result message the loop appends: role `user`,
content `TOOL_RESULT(name): payload` with the payload truncated. -/
def ToolShape (m : Msg) : Prop :=
  m.role = "user" ∧
  ∃ nm p, m.content = "TOOL_RESULT(" ++ nm ++ "): " ++ truncatePayload p

/-- A generation output holding exactly one marker-based invocation. -/
def toolText : String :=
  "\x7b\"tool\": \"t\", \"parameters\": \x7b\x7d\x7d"

/-- The invocation value `toolText` parses to. -/
def toolVal : JValue :=
  JValue.jobj [ ("tool", JValue.jstr "t"), ("parameters", JValue.jobj []) ]

/-- Text with exactly three well-formed fenced invocation blocks. -/
def fencedThree : String :=
  "x ```json\n\x7b\"tool\": \"a\", \"parameters\": \x7b\x7d\x7d\n``` y ```json \x7b\"tool\": \"b\", \"parameters\": \x7b\x7d\x7d``` z ```json\n\x7b\"tool\": \"c\", \"parameters\": \x7b\x7d\x7d ```"

/-- The three invocations inside `fencedThree`, in order of appearance. -/
def fencedThreeVals : List JValue :=
  [ JValue.jobj [ ("tool", JValue.jstr "a"), ("parameters", JValue.jobj []) ],
    JValue.jobj [ ("tool", JValue.jstr "b"), ("parameters", JValue.jobj []) ],
    JValue.jobj [ ("tool", JValue.jstr "c"), ("parameters", JValue.jobj []) ] ]

/-- A failed outer candidate that contains a well-formed invocation after
its marker: the code and the spec-described resumption rule disagree
here. -/
def nestedBadText : String :=
  "\x7b\"tool\": zzz, \"x\": \x7b\"tool\": \"t\", \"parameters\": \x7b\x7d\x7d\x7d"

/-- The inner invocation of `nestedBadText`. -/
def nestedInnerVal : JValue :=
  JValue.jobj [ ("tool", JValue.jstr "t"), ("parameters", JValue.jobj []) ]

/-- One well-formed marker-based invocation followed by a truncated,
never-closed one. -/
def goodThenTruncated : String :=
  "a \x7b\"tool\": \"t\", \"parameters\": \x7b\x7d\x7d b \x7b\"tool\": \"u\", \"parameters\": \x7b"

/-- A single truncated invocation and nothing else. -/
def truncatedOnly : String :=
  "\x7b\"tool\": \"u\", \"parameters\": \x7b\x7d"

/-- Oracle whose generation service always answers plain text with no
invocation markers, used for singleton counterexamples. -/
def oracleEcho : Oracle :=
  { gen := fun _ _ => GenResult.ok "hello"
    tool := fun _ _ _ => ""
    haltDuring := fun _ => false }

/-- Oracle producing one tool call on the first generation call and a
plain final answer afterwards; the tool returns the dumped string RES. -/
def oracleOneTool : Oracle :=
  { gen := fun k _ =>
      if k = 0 then GenResult.ok toolText else GenResult.ok "done"
    tool := fun _ _ _ => "RES"
    haltDuring := fun _ => false }

/-- Adversarial oracle: every generation output contains tool-call text,
no halts arrive. -/
def oracleAdversarial : Oracle :=
  { gen := fun _ _ => GenResult.ok toolText
    tool := fun _ _ _ => "RES"
    haltDuring := fun _ => false }

/-- Adversarial oracle with a halt arriving during iteration 0. -/
def oracleHaltAt0 : Oracle :=
  { gen := fun _ _ => GenResult.ok toolText
    tool := fun _ _ _ => "RES"
    haltDuring := fun k => k = 0 }

/-- A generation output whose single invocation names its tool with a
dict — valid JSON whose dispatch lookup raises `TypeError`. -/
def dictToolText : String :=
  "\x7b\"tool\": \x7b\x7d, \"parameters\": \x7b\x7d\x7d"

/-- Oracle whose generation always emits the dict-named invocation and
whose halt lands during iteration 0: the tool raise preempts both the
loop and the pending halt. -/
def oracleDictTool : Oracle :=
  { gen := fun _ _ => GenResult.ok dictToolText
    tool := fun _ _ _ => "RES"
    haltDuring := fun k => k = 0 }

theorem setLoadedFlag_cons (p : ModelRole × ModelConfig)
    (rest : List (ModelRole × ModelConfig)) (role : ModelRole) (b : Bool) :
    setLoadedFlag (p :: rest) role b =
      (if p.1 = role then (p.1, { p.2 with loaded := b }) else p) ::
        setLoadedFlag rest role b := rfl

theorem findConfig_cons (p : ModelRole × ModelConfig)
    (rest : List (ModelRole × ModelConfig)) (role : ModelRole) :
    findConfig (p :: rest) role =
      if p.1 = role then some p.2 else findConfig rest role := rfl

theorem sumLoadedCost_cons (p : ModelRole × ModelConfig)
    (rest : List (ModelRole × ModelConfig)) :
    sumLoadedCost (p :: rest) =
      (if p.2.loaded then p.2.vram_estimate_gb else 0) + sumLoadedCost rest := rfl

theorem setLoadedFlag_keys (m : List (ModelRole × ModelConfig))
    (role : ModelRole) (b : Bool) :
    (setLoadedFlag m role b).map Prod.fst = m.map Prod.fst := by
  induction m with
  | nil => rfl
  | cons p rest ih =>
    rw [setLoadedFlag_cons]
    by_cases h : p.1 = role
    · rw [if_pos h]
      simp only [List.map_cons, ih]
    · rw [if_neg h]
      simp only [List.map_cons, ih]

theorem findConfig_setLoadedFlag_ne (m : List (ModelRole × ModelConfig))
    (role r' : ModelRole) (b : Bool) (h : r' ≠ role) :
    findConfig (setLoadedFlag m role b) r' = findConfig m r' := by
  induction m with
  | nil => rfl
  | cons p rest ih =>
    rw [setLoadedFlag_cons]
    by_cases hp : p.1 = role
    · have hr : ¬(p.1 = r') := fun hc => h (by rw [← hc, hp])
      rw [if_pos hp, findConfig_cons, findConfig_cons, if_neg hr]
      have : ¬((p.1, { p.2 with loaded := b }).1 = r') := hr
      rw [if_neg this]
      exact ih
    · rw [if_neg hp, findConfig_cons, findConfig_cons]
      by_cases hq : p.1 = r'
      · rw [if_pos hq, if_pos hq]
      · rw [if_neg hq, if_neg hq]
        exact ih

theorem setLoadedFlag_not_mem (m : List (ModelRole × ModelConfig))
    (role : ModelRole) (b : Bool) (h : role ∉ m.map Prod.fst) :
    setLoadedFlag m role b = m := by
  induction m with
  | nil => rfl
  | cons p rest ih =>
    have h1 : ¬(p.1 = role) := fun hc => h (by
      rw [← hc]
      exact List.mem_map_of_mem Prod.fst (List.mem_cons_self p rest))
    have h2 : role ∉ rest.map Prod.fst := fun hc => h (by
      rw [List.map_cons]
      exact List.mem_cons_of_mem _ hc)
    rw [setLoadedFlag_cons, if_neg h1, ih h2]

theorem findConfig_mem (m : List (ModelRole × ModelConfig))
    (p : ModelRole × ModelConfig) (hN : (m.map Prod.fst).Nodup) (hp : p ∈ m) :
    findConfig m p.1 = some p.2 := by
  induction m with
  | nil => cases hp
  | cons q rest ih =>
    rw [List.map_cons, List.nodup_cons] at hN
    rcases List.mem_cons.mp hp with rfl | hmem
    · rw [findConfig_cons, if_pos rfl]
    · have hne : ¬(q.1 = p.1) := by
        intro hc
        exact hN.1 (hc ▸ List.mem_map_of_mem Prod.fst hmem)
      rw [findConfig_cons, if_neg hne]
      exact ih hN.2 hmem

theorem findConfig_some_mem (m : List (ModelRole × ModelConfig))
    (role : ModelRole) (c : ModelConfig) (h : findConfig m role = some c) :
    (role, c) ∈ m := by
  induction m with
  | nil => cases h
  | cons p rest ih =>
    obtain ⟨r0, c0⟩ := p
    rw [findConfig_cons] at h
    by_cases hp : r0 = role
    · subst hp
      simp only [if_pos rfl] at h
      injection h with h
      subst h
      exact List.mem_cons_self _ _
    · rw [if_neg hp] at h
      exact List.mem_cons_of_mem _ (ih h)

theorem sum_setLoadedFalse (m : List (ModelRole × ModelConfig))
    (role : ModelRole) (c : ModelConfig) (hN : (m.map Prod.fst).Nodup)
    (hf : findConfig m role = some c) (hl : c.loaded = true) :
    sumLoadedCost (setLoadedFlag m role false) =
      sumLoadedCost m - c.vram_estimate_gb := by
  induction m with
  | nil => cases hf
  | cons p rest ih =>
    rw [List.map_cons, List.nodup_cons] at hN
    rw [findConfig_cons] at hf
    rw [setLoadedFlag_cons]
    by_cases hp : p.1 = role
    · rw [if_pos hp] at hf ⊢
      injection hf with hf
      subst hf
      have hrest : setLoadedFlag rest role false = rest :=
        setLoadedFlag_not_mem rest role false (hp ▸ hN.1)
      rw [hrest, sumLoadedCost_cons, sumLoadedCost_cons, hl]
      simp only [Bool.false_eq_true, if_false, if_true]
      ring
    · rw [if_neg hp] at hf ⊢
      rw [sumLoadedCost_cons, sumLoadedCost_cons, ih hN.2 hf]
      ring

theorem sum_setLoadedTrue (m : List (ModelRole × ModelConfig))
    (role : ModelRole) (c : ModelConfig) (hN : (m.map Prod.fst).Nodup)
    (hf : findConfig m role = some c) (hl : c.loaded = false) :
    sumLoadedCost (setLoadedFlag m role true) =
      sumLoadedCost m + c.vram_estimate_gb := by
  induction m with
  | nil => cases hf
  | cons p rest ih =>
    rw [List.map_cons, List.nodup_cons] at hN
    rw [findConfig_cons] at hf
    rw [setLoadedFlag_cons]
    by_cases hp : p.1 = role
    · rw [if_pos hp] at hf ⊢
      injection hf with hf
      subst hf
      have hrest : setLoadedFlag rest role true = rest :=
        setLoadedFlag_not_mem rest role true (hp ▸ hN.1)
      rw [hrest, sumLoadedCost_cons, sumLoadedCost_cons, hl]
      simp only [Bool.false_eq_true, if_false, if_true]
      ring
    · rw [if_neg hp] at hf ⊢
      rw [sumLoadedCost_cons, sumLoadedCost_cons, ih hN.2 hf]
      ring

theorem costsOk_setLoadedFlag (B : ℚ) (m : List (ModelRole × ModelConfig))
    (role : ModelRole) (b : Bool) (h : CostsOk B m) :
    CostsOk B (setLoadedFlag m role b) := by
  intro p hp
  simp only [setLoadedFlag, List.mem_map] at hp
  obtain ⟨q, hq, hpq⟩ := hp
  by_cases hqr : q.1 = role
  · rw [if_pos hqr] at hpq
    have := h q hq
    rw [← hpq]
    exact this
  · rw [if_neg hqr] at hpq
    exact hpq ▸ h q hq
theorem unload_model_eq_of_found (st : ModelManager) (role : ModelRole)
    (c : ModelConfig) (hf : findConfig st.models role = some c)
    (hl : c.loaded = true) :
    unload_model st role =
      { st with
        models := setLoadedFlag st.models role false
        current_vram_usage := st.current_vram_usage - c.vram_estimate_gb } := by
  unfold unload_model
  rw [hf]
  simp [unload_model_found, hl]

theorem sumCostList_cons (p : ModelRole × ModelConfig)
    (rest : List (ModelRole × ModelConfig)) :
    sumCostList (p :: rest) = p.2.vram_estimate_gb + sumCostList rest := by
  simp [sumCostList]

theorem sumCostList_loaded (m : List (ModelRole × ModelConfig)) :
    sumCostList (m.filter (fun p => p.2.loaded)) = sumLoadedCost m := by
  induction m with
  | nil => rfl
  | cons p rest ih =>
    by_cases h : p.2.loaded
    · rw [List.filter_cons, if_pos (by simpa using h), sumCostList_cons,
        sumLoadedCost_cons, if_pos h, ih]
    · rw [List.filter_cons, if_neg (by simpa using h),
        sumLoadedCost_cons, if_neg h, ih]
      ring

theorem evictLoop_spec (L : List (ModelRole × ModelConfig)) :
    ∀ (st : ModelManager) (freed needed : ℚ),
      (st.models.map Prod.fst).Nodup →
      st.current_vram_usage = sumLoadedCost st.models →
      CostsOk st.max_vram_gb st.models →
      (∀ p ∈ L, findConfig st.models p.1 = some p.2 ∧ p.2.loaded = true) →
      (L.map Prod.fst).Nodup →
      ((evictLoop st L freed needed).models.map Prod.fst).Nodup ∧
      (evictLoop st L freed needed).current_vram_usage =
        sumLoadedCost (evictLoop st L freed needed).models ∧
      (evictLoop st L freed needed).max_vram_gb = st.max_vram_gb ∧
      CostsOk (evictLoop st L freed needed).max_vram_gb
        (evictLoop st L freed needed).models ∧
      (∀ r', r' ∉ L.map Prod.fst →
        findConfig (evictLoop st L freed needed).models r' =
          findConfig st.models r') ∧
      ((evictLoop st L freed needed).current_vram_usage + needed ≤
          st.current_vram_usage + freed ∨
        (evictLoop st L freed needed).current_vram_usage =
          st.current_vram_usage - sumCostList L) := by
  induction L with
  | nil =>
    intro st freed needed hN hU hC _ _
    refine ⟨hN, hU, rfl, hC, fun r' _ => rfl, Or.inr ?_⟩
    simp [evictLoop, sumCostList]
  | cons p rest ih =>
    intro st freed needed hN hU hC hL hLN
    obtain ⟨r0, c0⟩ := p
    have hstep : evictLoop st ((r0, c0) :: rest) freed needed =
        if needed ≤ freed then st
        else evictLoop (unload_model st r0) rest
          (freed + c0.vram_estimate_gb) needed := rfl
    by_cases hstop : needed ≤ freed
    · rw [hstep, if_pos hstop]
      exact ⟨hN, hU, rfl, hC, fun r' _ => rfl, Or.inl (by linarith)⟩
    · rw [hstep, if_neg hstop]
      have hhead := hL (r0, c0) (List.mem_cons_self _ _)
      have hfind : findConfig st.models r0 = some c0 := hhead.1
      have hloaded : c0.loaded = true := hhead.2
      have hun := unload_model_eq_of_found st r0 c0 hfind hloaded
      have hr0rest : r0 ∉ rest.map Prod.fst := by
        rw [List.map_cons, List.nodup_cons] at hLN
        exact hLN.1
      have hN1 : ((unload_model st r0).models.map Prod.fst).Nodup := by
        rw [hun]
        simpa [setLoadedFlag_keys] using hN
      have hU1 : (unload_model st r0).current_vram_usage =
          sumLoadedCost (unload_model st r0).models := by
        rw [hun]
        simp only
        rw [sum_setLoadedFalse st.models r0 c0 hN hfind hloaded, hU]
      have hC1 : CostsOk (unload_model st r0).max_vram_gb
          (unload_model st r0).models := by
        rw [hun]
        exact costsOk_setLoadedFlag _ _ _ _ hC
      have hL1 : ∀ p ∈ rest,
          findConfig (unload_model st r0).models p.1 = some p.2 ∧
          p.2.loaded = true := by
        intro p hp
        have hkey : p.1 ≠ r0 := by
          intro hc
          exact hr0rest (hc ▸ List.mem_map_of_mem Prod.fst hp)
        constructor
        · rw [hun]
          simp only
          rw [findConfig_setLoadedFlag_ne st.models r0 p.1 false hkey]
          exact (hL p (List.mem_cons_of_mem _ hp)).1
        · exact (hL p (List.mem_cons_of_mem _ hp)).2
      have hLN1 : (rest.map Prod.fst).Nodup := by
        rw [List.map_cons, List.nodup_cons] at hLN
        exact hLN.2
      obtain ⟨cN, cU, cM, cC, cF, cD⟩ :=
        ih (unload_model st r0) (freed + c0.vram_estimate_gb) needed
          hN1 hU1 hC1 hL1 hLN1
      have hmax1 : (unload_model st r0).max_vram_gb = st.max_vram_gb := by
        rw [hun]
      have husage1 : (unload_model st r0).current_vram_usage =
          st.current_vram_usage - c0.vram_estimate_gb := by
        rw [hun]
      refine ⟨cN, cU, by rw [cM, hmax1], by rw [cM, hmax1] at cC ⊢; exact cC,
        ?_, ?_⟩
      · intro r' hr'
        have hr0 : r' ≠ r0 := by
          intro hc
          exact hr' (by rw [List.map_cons]; exact hc ▸ List.mem_cons_self _ _)
        have hrrest : r' ∉ rest.map Prod.fst := by
          intro hc
          exact hr' (by rw [List.map_cons]; exact List.mem_cons_of_mem _ hc)
        rw [cF r' hrrest, hun]
        simp only
        exact findConfig_setLoadedFlag_ne st.models r0 r' false hr0
      · rcases cD with hle | heq
        · left
          rw [husage1] at hle
          linarith
        · right
          rw [heq, husage1, sumCostList_cons]
          ring
theorem free_vram_spec (st : ModelManager) (needed : ℚ)
    (hN : (st.models.map Prod.fst).Nodup)
    (hU : st.current_vram_usage = sumLoadedCost st.models)
    (hC : CostsOk st.max_vram_gb st.models) :
    ((free_vram st needed).models.map Prod.fst).Nodup ∧
    (free_vram st needed).current_vram_usage =
      sumLoadedCost (free_vram st needed).models ∧
    (free_vram st needed).max_vram_gb = st.max_vram_gb ∧
    CostsOk (free_vram st needed).max_vram_gb (free_vram st needed).models ∧
    (∀ r' c, findConfig st.models r' = some c → c.loaded = false →
      findConfig (free_vram st needed).models r' = some c) ∧
    ((free_vram st needed).current_vram_usage + needed ≤
        st.current_vram_usage ∨
      (free_vram st needed).current_vram_usage = 0) := by
  have hperm := List.perm_insertionSort
    (fun a b : ModelRole × ModelConfig => a.2.priority ≤ b.2.priority)
    (loadedModels st)
  have hlive : ∀ p ∈ sortByPriority (loadedModels st),
      findConfig st.models p.1 = some p.2 ∧ p.2.loaded = true := by
    intro p hp
    have hmem : p ∈ loadedModels st := hperm.mem_iff.mp hp
    have hflt := List.mem_filter.mp hmem
    exact ⟨findConfig_mem st.models p hN hflt.1, by simpa using hflt.2⟩
  have hkeys : ((sortByPriority (loadedModels st)).map Prod.fst).Nodup := by
    have hsub : ((loadedModels st).map Prod.fst).Sublist
        (st.models.map Prod.fst) :=
      (List.filter_sublist st.models).map Prod.fst
    exact ((hperm.map Prod.fst).nodup_iff).mpr (hN.sublist hsub)
  have hsum : sumCostList (sortByPriority (loadedModels st)) =
      sumLoadedCost st.models := by
    have h1 : sumCostList (sortByPriority (loadedModels st)) =
        sumCostList (loadedModels st) := by
      unfold sumCostList
      exact (hperm.map (fun p => p.2.vram_estimate_gb)).sum_eq
    rw [h1]
    unfold loadedModels
    exact sumCostList_loaded st.models
  obtain ⟨cN, cU, cM, cC, cF, cD⟩ :=
    evictLoop_spec (sortByPriority (loadedModels st)) st 0 needed
      hN hU hC hlive hkeys
  refine ⟨cN, cU, cM, cC, ?_, ?_⟩
  · intro r' c hf' hl'
    have hnot : r' ∉ (sortByPriority (loadedModels st)).map Prod.fst := by
      intro hc
      obtain ⟨p, hp, hfst⟩ := List.mem_map.mp hc
      have hx := hlive p hp
      rw [hfst] at hx
      rw [hf'] at hx
      have : c = p.2 := by injection hx.1
      rw [this, hx.2] at hl'
      cases hl'
    show findConfig
      (evictLoop st (sortByPriority (loadedModels st)) 0 needed).models r' =
        some c
    rw [cF r' hnot]
    exact hf'
  · rcases cD with hle | heq
    · refine Or.inl ?_
      show (evictLoop st (sortByPriority (loadedModels st)) 0
        needed).current_vram_usage + needed ≤ st.current_vram_usage
      linarith
    · refine Or.inr ?_
      show (evictLoop st (sortByPriority (loadedModels st)) 0
        needed).current_vram_usage = 0
      rw [heq, hsum, ← hU]
      ring

theorem request_model_none (st : ModelManager) (role : ModelRole)
    (hf : findConfig st.models role = none) :
    request_model st role = (false, st) := by
  unfold request_model
  rw [hf]
  rfl

theorem request_model_loaded (st : ModelManager) (role : ModelRole)
    (config : ModelConfig) (hf : findConfig st.models role = some config)
    (hl : config.loaded = true) :
    request_model st role = (true, st) := by
  unfold request_model
  rw [hf]
  simp [request_model_found, hl]

theorem request_model_fits (st : ModelManager) (role : ModelRole)
    (config : ModelConfig) (hf : findConfig st.models role = some config)
    (hl : config.loaded = false)
    (hav : ¬(st.max_vram_gb - st.current_vram_usage < config.vram_estimate_gb)) :
    request_model st role =
      (true,
        { max_vram_gb := st.max_vram_gb
          models := setLoadedFlag st.models role true
          current_vram_usage :=
            st.current_vram_usage + config.vram_estimate_gb }) := by
  unfold request_model
  rw [hf]
  simp [request_model_found, hl, hav]

theorem request_model_evict (st : ModelManager) (role : ModelRole)
    (config : ModelConfig) (hf : findConfig st.models role = some config)
    (hl : config.loaded = false)
    (hav : st.max_vram_gb - st.current_vram_usage < config.vram_estimate_gb) :
    request_model st role =
      (true,
        { max_vram_gb :=
            (free_vram st (config.vram_estimate_gb -
              (st.max_vram_gb - st.current_vram_usage))).max_vram_gb
          models := setLoadedFlag
            (free_vram st (config.vram_estimate_gb -
              (st.max_vram_gb - st.current_vram_usage))).models role true
          current_vram_usage :=
            (free_vram st (config.vram_estimate_gb -
              (st.max_vram_gb - st.current_vram_usage))).current_vram_usage +
              config.vram_estimate_gb }) := by
  unfold request_model
  rw [hf]
  simp [request_model_found, hl, hav]

theorem request_model_good (st : ModelManager) (role : ModelRole)
    (h : GoodManager st) : GoodManager (request_model st role).2 := by
  obtain ⟨hN, hU, hC, hB⟩ := h
  cases hfc : findConfig st.models role with
  | none =>
    rw [request_model_none st role hfc]
    exact ⟨hN, hU, hC, hB⟩
  | some config =>
    by_cases hld : config.loaded = true
    · rw [request_model_loaded st role config hfc hld]
      exact ⟨hN, hU, hC, hB⟩
    · have hl : config.loaded = false := by
        rw [Bool.not_eq_true] at hld
        exact hld
      have hmem := findConfig_some_mem st.models role config hfc
      have hcost := hC (role, config) hmem
      by_cases hav :
          st.max_vram_gb - st.current_vram_usage < config.vram_estimate_gb
      · rw [request_model_evict st role config hfc hl hav]
        obtain ⟨fN, fU, fM, fC, fP, fD⟩ :=
          free_vram_spec st
            (config.vram_estimate_gb -
              (st.max_vram_gb - st.current_vram_usage)) hN hU hC
        have hpres := fP role config hfc hl
        refine ⟨?_, ?_, ?_, ?_⟩
        · simpa [setLoadedFlag_keys] using fN
        · show (free_vram st _).current_vram_usage + config.vram_estimate_gb =
            sumLoadedCost (setLoadedFlag (free_vram st _).models role true)
          rw [sum_setLoadedTrue (free_vram st _).models role config fN
            hpres hl, ← fU]
        · exact costsOk_setLoadedFlag _ _ _ _ fC
        · show (free_vram st _).current_vram_usage + config.vram_estimate_gb ≤
            (free_vram st _).max_vram_gb
          rw [fM]
          rcases fD with hle | h0
          · linarith
          · rw [h0]
            linarith [hcost.2]
      · rw [request_model_fits st role config hfc hl hav]
        push_neg at hav
        refine ⟨?_, ?_, ?_, ?_⟩
        · simpa [setLoadedFlag_keys] using hN
        · show st.current_vram_usage + config.vram_estimate_gb =
            sumLoadedCost (setLoadedFlag st.models role true)
          rw [sum_setLoadedTrue st.models role config hN hfc hl, ← hU]
        · exact costsOk_setLoadedFlag _ _ _ _ hC
        · show st.current_vram_usage + config.vram_estimate_gb ≤
            st.max_vram_gb
          linarith

theorem runRequests_good (rs : List ModelRole) :
    ∀ st : ModelManager, GoodManager st → GoodManager (runRequests st rs) := by
  induction rs with
  | nil => intro st h; exact h
  | cons r rest ih =>
    intro st h
    have hstep : runRequests st (r :: rest) =
        runRequests (request_model st r).2 rest := rfl
    rw [hstep]
    exact ih _ (request_model_good st r h)
theorem evictLoop_eq_foldl (L : List (ModelRole × ModelConfig)) :
    ∀ (st : ModelManager) (freed needed : ℚ),
      evictLoop st L freed needed =
        (greedyEvictedPrefix needed freed L).foldl
          (fun s p => unload_model s p.1) st := by
  induction L with
  | nil => intro st freed needed; rfl
  | cons p rest ih =>
    intro st freed needed
    obtain ⟨r0, c0⟩ := p
    by_cases h : needed ≤ freed
    · simp [evictLoop, greedyEvictedPrefix, h]
    · simp [evictLoop, greedyEvictedPrefix, h, ih]

/-- C1: for every sequence of `request_model` calls starting from the freshly
initialised manager (default models, nothing loaded, `current_vram_usage = 0`,
default budget 24), at every quiescent point between calls the bookkeeping
usage equals the sum of the costs of the loaded descriptors and never exceeds
the budget. -/
theorem scheduler_budget_invariant :
    ∀ rs : List ModelRole,
      (runRequests (initialManager 24) rs).current_vram_usage =
        sumLoadedCost (runRequests (initialManager 24) rs).models ∧
      (runRequests (initialManager 24) rs).current_vram_usage ≤
        (runRequests (initialManager 24) rs).max_vram_gb := by
  intro rs
  have h0 : GoodManager (initialManager 24) := by
    refine ⟨by decide, by simp [initialManager, defaultModels, sumLoadedCost],
      ?_, by norm_num [initialManager]⟩
    intro p hp
    simp only [initialManager, defaultModels, List.mem_cons,
      List.not_mem_nil, or_false] at hp
    rcases hp with rfl | rfl | rfl | rfl <;>
      refine ⟨by norm_num, ?_⟩ <;> norm_num [initialManager]
  obtain ⟨_, hU, _, hB⟩ := runRequests_good rs (initialManager 24) h0
  exact ⟨hU, hB⟩

/-- C2 (code evidence): with a 10 GB budget, requesting EXECUTIVE (cost 16,
which exceeds the whole budget) does NOT fail and is not side-effect-free:
`request_model` returns True, marks the role loaded, and leaves
`current_vram_usage = 16 > 10 = max_vram_gb`. -/
theorem overbudget_request_still_loads :
    (request_model (initialManager 10) ModelRole.EXECUTIVE).1 = true ∧
    (request_model (initialManager 10)
      ModelRole.EXECUTIVE).2.current_vram_usage = 16 ∧
    findConfig (request_model (initialManager 10)
        ModelRole.EXECUTIVE).2.models ModelRole.EXECUTIVE =
      some { name := "nemotron-3-nano:30b-a3b-q4_K_M"
             role := ModelRole.EXECUTIVE, loaded := true, priority := 10
             last_used := 0, vram_estimate_gb := 16 } ∧
    (request_model (initialManager 10)
        ModelRole.EXECUTIVE).2.current_vram_usage >
      (request_model (initialManager 10)
        ModelRole.EXECUTIVE).2.max_vram_gb ∧
    (request_model (initialManager 10) ModelRole.EXECUTIVE).2 ≠
      initialManager 10 := by
  have hrw : request_model (initialManager 10) ModelRole.EXECUTIVE =
      request_model_found (initialManager 10) ModelRole.EXECUTIVE
        (some { name := "nemotron-3-nano:30b-a3b-q4_K_M"
                role := ModelRole.EXECUTIVE, loaded := false, priority := 10
                last_used := 0, vram_estimate_gb := 16 }) := by
    rw [request_model, show findConfig (initialManager 10).models
        ModelRole.EXECUTIVE =
      some { name := "nemotron-3-nano:30b-a3b-q4_K_M"
             role := ModelRole.EXECUTIVE, loaded := false, priority := 10
             last_used := 0, vram_estimate_gb := 16 } from by
        simp [initialManager, defaultModels, findConfig]]
  rw [hrw]
  iterate 5
    (try simp [request_model_found, initialManager, defaultModels, free_vram,
      loadedModels, sortByPriority, List.insertionSort, List.orderedInsert,
      evictLoop, unload_model, unload_model_found, findConfig, setLoadedFlag,
      ModelManager.mk.injEq]
     try norm_num)

/-- C3: `_free_vram` evicts exactly a greedy prefix of the loaded models
sorted by ascending priority (stable order), stopping as soon as the
cumulative freed capacity reaches the requested amount; and in the concrete
scenario (budget 10, A cost 6 priority 1 loaded, B cost 4 priority 2 loaded,
C cost 5 priority 5, usage 10) requesting C evicts A only, leaving
A unloaded, B and C loaded and usage 9. -/
theorem eviction_order_and_scenario :
    (∀ (st : ModelManager) (needed : ℚ),
      free_vram st needed =
        (greedyEvictedPrefix needed 0
          (sortByPriority (loadedModels st))).foldl
          (fun s p => unload_model s p.1) st) ∧
    (∀ l : List (ModelRole × ModelConfig),
      List.Pairwise (fun a b => a.2.priority ≤ b.2.priority)
        (sortByPriority l)) ∧
    request_model scenarioManager ModelRole.EYE =
      (true,
        { max_vram_gb := 10
          models :=
            [ (ModelRole.EXECUTIVE,
                { name := "A", role := ModelRole.EXECUTIVE, loaded := false
                  priority := 1, last_used := 0, vram_estimate_gb := 6 }),
              (ModelRole.NAVIGATOR,
                { name := "B", role := ModelRole.NAVIGATOR, loaded := true
                  priority := 2, last_used := 0, vram_estimate_gb := 4 }),
              (ModelRole.EYE,
                { name := "C", role := ModelRole.EYE, loaded := true
                  priority := 5, last_used := 0, vram_estimate_gb := 5 }) ]
          current_vram_usage := 9 }) := by
  refine ⟨?_, ?_, ?_⟩
  · intro st needed
    exact evictLoop_eq_foldl (sortByPriority (loadedModels st)) st 0 needed
  · intro l
    haveI : IsTotal (ModelRole × ModelConfig)
        (fun a b => a.2.priority ≤ b.2.priority) :=
      ⟨fun a b => le_total a.2.priority b.2.priority⟩
    haveI : IsTrans (ModelRole × ModelConfig)
        (fun a b => a.2.priority ≤ b.2.priority) :=
      ⟨fun _ _ _ hab hbc => le_trans hab hbc⟩
    exact List.sorted_insertionSort _ l
  · rw [request_model, show findConfig scenarioManager.models ModelRole.EYE =
      some { name := "C", role := ModelRole.EYE, loaded := false
             priority := 5, last_used := 0, vram_estimate_gb := 5 } from by
        simp [scenarioManager, findConfig]]
    iterate 5
      (try simp [request_model_found, scenarioManager, free_vram,
        loadedModels, sortByPriority, List.insertionSort, List.orderedInsert,
        evictLoop, unload_model, unload_model_found, findConfig,
        setLoadedFlag]
       try norm_num)

theorem toolMsgOf_shape (ora : Oracle) (tc : Nat) (call : JValue) :
    ToolShape (toolMsgOf ora tc call) :=
  ⟨rfl, pyFormatName (jget call "tool"), (actionOf ora tc call).2.2, rfl⟩

theorem runTools_spec (ora : Oracle) (calls : List JValue) :
    ∀ (tc : Nat) (st : AgentState)
      (actions : List (Option JValue × JValue × String))
      (toolMsgs : List Msg),
      (runTools ora tc st calls actions toolMsgs).1.halt_flag = st.halt_flag ∧
      (runTools ora tc st calls actions toolMsgs).1.max_iterations =
        st.max_iterations ∧
      (runTools ora tc st calls actions toolMsgs).1.max_history =
        st.max_history ∧
      (∃ L, (runTools ora tc st calls actions toolMsgs).1.conversation_history =
          st.conversation_history ++ L ∧
        (runTools ora tc st calls actions toolMsgs).2.2.2.1 =
          L.reverse ++ toolMsgs ∧
        ∀ m ∈ L, ToolShape m) := by
  induction calls with
  | nil =>
    intro tc st actions toolMsgs
    exact ⟨rfl, rfl, rfl, ⟨[], by simp [runTools], by simp [runTools],
      by simp⟩⟩
  | cons call rest ih =>
    intro tc st actions toolMsgs
    cases hex : execute_tool ora tc (jget call "tool")
        ((jget call "parameters").getD (JValue.jobj [])) with
    | error e =>
      have hstep : runTools ora tc st (call :: rest) actions toolMsgs =
          (st, tc, actions, toolMsgs, some e) := by
        simp only [runTools]
        rw [hex]
      rw [hstep]
      exact ⟨rfl, rfl, rfl, ⟨[], by simp, by simp, by simp⟩⟩
    | ok sres =>
      have hstep : runTools ora tc st (call :: rest) actions toolMsgs =
          runTools ora (tc + 1)
            { st with conversation_history :=
                st.conversation_history ++ [ toolMsgOf ora tc call ] }
            rest (actionOf ora tc call :: actions)
            (toolMsgOf ora tc call :: toolMsgs) := by
        simp only [runTools]
        rw [hex]
      rw [hstep]
      obtain ⟨h1, h2, h3, ⟨L, hL1, hL2, hL3⟩⟩ :=
        ih (tc + 1)
          { st with conversation_history :=
              st.conversation_history ++ [ toolMsgOf ora tc call ] }
          (actionOf ora tc call :: actions) (toolMsgOf ora tc call :: toolMsgs)
      refine ⟨h1, h2, h3, ⟨toolMsgOf ora tc call :: L, ?_, ?_, ?_⟩⟩
      · rw [hL1]
        simp
      · rw [hL2]
        simp
      · intro m hm
        rcases List.mem_cons.mp hm with rfl | hm2
        · exact toolMsgOf_shape ora tc call
        · exact hL3 m hm2

theorem runTools_ok (ora : Oracle) (calls : List JValue) :
    ∀ (tc : Nat) (st : AgentState)
      (actions : List (Option JValue × JValue × String))
      (toolMsgs : List Msg),
      (∀ c ∈ calls, hashableName (jget c "tool") = true) →
      (runTools ora tc st calls actions toolMsgs).2.2.2.2 = none ∧
      (runTools ora tc st calls actions toolMsgs).2.2.1.length =
        actions.length + calls.length ∧
      (runTools ora tc st calls actions toolMsgs).2.2.2.1.length =
        toolMsgs.length + calls.length := by
  induction calls with
  | nil =>
    intro tc st actions toolMsgs _
    exact ⟨rfl, by simp [runTools], by simp [runTools]⟩
  | cons call rest ih =>
    intro tc st actions toolMsgs hok
    have hex : execute_tool ora tc (jget call "tool")
        ((jget call "parameters").getD (JValue.jobj [])) =
        Except.ok (ora.tool tc (jget call "tool")
          ((jget call "parameters").getD (JValue.jobj []))) := by
      simp [execute_tool, hok call (List.mem_cons_self call rest)]
    have hstep : runTools ora tc st (call :: rest) actions toolMsgs =
        runTools ora (tc + 1)
          { st with conversation_history :=
              st.conversation_history ++ [ toolMsgOf ora tc call ] }
          rest (actionOf ora tc call :: actions)
          (toolMsgOf ora tc call :: toolMsgs) := by
      simp only [runTools]
      rw [hex]
    rw [hstep]
    obtain ⟨h1, h2, h3⟩ := ih (tc + 1)
      { st with conversation_history :=
          st.conversation_history ++ [ toolMsgOf ora tc call ] }
      (actionOf ora tc call :: actions) (toolMsgOf ora tc call :: toolMsgs)
      (fun c hc => hok c (List.mem_cons_of_mem call hc))
    refine ⟨h1, ?_, ?_⟩
    · rw [h2]
      simp [List.length_cons]
      omega
    · rw [h3]
      simp [List.length_cons]
      omega

theorem agentLoop_genCalls_le (ora : Oracle) :
    ∀ (remaining k tc : Nat) (st : AgentState)
      (actions : List (Option JValue × JValue × String))
      (genCalls : List (List Msg × List Msg)) (toolMsgs : List Msg),
      (agentLoop ora remaining k tc st actions
        genCalls toolMsgs).2.2.genCalls.length ≤
        genCalls.length + remaining := by
  intro remaining
  induction remaining with
  | zero =>
    intro k tc st actions genCalls toolMsgs
    simp [agentLoop]
  | succ n ih =>
    intro k tc st actions genCalls toolMsgs
    simp only [agentLoop]
    split
    · simp
    · split
      · simp
        try omega
      · split
        · simp
          try omega
        · split
          · simp
            try omega
          · split
            · simp
              try omega
            · refine le_trans (ih _ _ _ _ _ _) ?_
              simp
              try omega

theorem agentLoop_halted (ora : Oracle) (n k tc : Nat) (st : AgentState)
    (actions : List (Option JValue × JValue × String))
    (genCalls : List (List Msg × List Msg)) (toolMsgs : List Msg)
    (h : st.halt_flag = true) :
    agentLoop ora (n + 1) k tc st actions genCalls toolMsgs =
      (st, { response := "Task halted by user.", actions := actions.reverse },
        { genCalls := genCalls.reverse, toolMsgs := toolMsgs.reverse
          outcome := Outcome.halted }) := by
  simp [agentLoop, h]

theorem agentLoop_adversarial (ora : Oracle)
    (hgen : ∀ j ms, ∃ r, ora.gen j ms = GenResult.ok r ∧ r ≠ "" ∧
      extract_tool_calls r ≠ [] ∧
      ∀ c ∈ extract_tool_calls r, hashableName (jget c "tool") = true)
    (hhalt : ∀ j, ora.haltDuring j = false) :
    ∀ (remaining k tc : Nat) (st : AgentState)
      (actions : List (Option JValue × JValue × String))
      (genCalls : List (List Msg × List Msg)) (toolMsgs : List Msg),
      st.halt_flag = false →
      (agentLoop ora remaining k tc st actions
        genCalls toolMsgs).2.2.outcome = Outcome.capped ∧
      (agentLoop ora remaining k tc st actions
        genCalls toolMsgs).2.2.genCalls.length = genCalls.length + remaining := by
  intro remaining
  induction remaining with
  | zero =>
    intro k tc st actions genCalls toolMsgs _
    simp [agentLoop]
  | succ n ih =>
    intro k tc st actions genCalls toolMsgs hflag
    obtain ⟨r, hg, hne, hex, htool⟩ :=
      hgen k (sysMsg :: windowOf st.conversation_history st.max_history)
    simp only [agentLoop, hflag, Bool.false_eq_true, if_false]
    rw [hg]
    simp only [if_neg hne]
    cases hcalls : extract_tool_calls r with
    | nil => exact absurd hcalls hex
    | cons c cs =>
      have htool2 : ∀ c2 ∈ (c :: cs), hashableName (jget c2 "tool") = true := by
        rw [← hcalls]
        exact htool
      have herr : (runTools ora tc st (c :: cs) actions
          toolMsgs).2.2.2.2 = none :=
        (runTools_ok ora (c :: cs) tc st actions toolMsgs htool2).1
      dsimp only
      rw [herr]
      dsimp only
      have hflag2 : (runTools ora tc st (c :: cs) actions toolMsgs).1.halt_flag
          = false := by
        rw [(runTools_spec ora (c :: cs) tc st actions toolMsgs).1, hflag]
      have := ih (k + 1)
        (runTools ora tc st (c :: cs) actions toolMsgs).2.1
        { (runTools ora tc st (c :: cs) actions toolMsgs).1 with
          halt_flag := (runTools ora tc st (c :: cs) actions
            toolMsgs).1.halt_flag || ora.haltDuring k }
        (runTools ora tc st (c :: cs) actions toolMsgs).2.2.1
        ((st.conversation_history,
          sysMsg :: windowOf st.conversation_history st.max_history) :: genCalls)
        (runTools ora tc st (c :: cs) actions toolMsgs).2.2.2.1
        (by simp [hflag2, hhalt k])
      refine ⟨?_, ?_⟩
      · rw [this.1]
      · rw [this.2]
        simp
        try omega

/-- C4: one `process_task` call issues at most `max_iterations + 1`
generation calls for every oracle behaviour (indeed at most
`max_iterations`), including behaviours whose tool dispatch raises; an
adversarial generation service whose every output contains tool-call
text with hashable tool names (so no dispatch raise cuts the loop
short) forces the loop to exhaust the iteration cap with exactly
`max_iterations` generation calls and the capped (forced Incomplete)
exit. -/
theorem agent_loop_call_bound :
    (∀ (ora : Oracle) (st : AgentState) (task : String),
      (process_task ora st task).2.2.genCalls.length ≤
        st.max_iterations + 1) ∧
    (∀ (ora : Oracle) (st : AgentState) (task : String),
      (∀ j ms, ∃ r, ora.gen j ms = GenResult.ok r ∧ r ≠ "" ∧
        extract_tool_calls r ≠ [] ∧
        ∀ c ∈ extract_tool_calls r, hashableName (jget c "tool") = true) →
      (∀ j, ora.haltDuring j = false) →
      (process_task ora st task).2.2.outcome = Outcome.capped ∧
      (process_task ora st task).2.2.genCalls.length = st.max_iterations) := by
  constructor
  · intro ora st task
    unfold process_task
    refine le_trans (agentLoop_genCalls_le ora st.max_iterations 0 0 _ _ _ _) ?_
    simp
  · intro ora st task hgen hhalt
    have h := agentLoop_adversarial ora hgen hhalt st.max_iterations 0 0
      { st with
        halt_flag := false
        current_task := some task
        conversation_history := st.conversation_history ++
          [ { role := "user", content := task } ] } [] [] [] rfl
    exact ⟨h.1, h.2.trans (by simp)⟩

/-- Witness for C4: the concrete adversarial oracle hits the cap after
exactly 15 generation calls on a fresh agent. -/
theorem agent_loop_call_bound_witness :
    (∀ j ms, ∃ r, oracleAdversarial.gen j ms = GenResult.ok r ∧ r ≠ "" ∧
      extract_tool_calls r ≠ [] ∧
      ∀ c ∈ extract_tool_calls r, hashableName (jget c "tool") = true) ∧
    (∀ j, oracleAdversarial.haltDuring j = false) ∧
    (process_task oracleAdversarial newAgent "go").2.2.outcome =
      Outcome.capped ∧
    (process_task oracleAdversarial newAgent "go").2.2.genCalls.length = 15 := by
  have h1 : ∀ j ms, ∃ r, oracleAdversarial.gen j ms = GenResult.ok r ∧
      r ≠ "" ∧ extract_tool_calls r ≠ [] ∧
      ∀ c ∈ extract_tool_calls r, hashableName (jget c "tool") = true := by
    intro j ms
    refine ⟨toolText, rfl, by decide, ?_, ?_⟩
    · rw [show extract_tool_calls toolText = [ toolVal ] from rfl]
      exact List.cons_ne_nil _ _
    · rw [show extract_tool_calls toolText = [ toolVal ] from rfl]
      intro c hc
      rcases List.mem_cons.mp hc with rfl | h2
      · rfl
      · cases h2
  have h2 : ∀ j, oracleAdversarial.haltDuring j = false := fun _ => rfl
  have h := agent_loop_call_bound.2 oracleAdversarial newAgent "go" h1 h2
  exact ⟨h1, h2, h.1, h.2⟩

theorem agentLoop_halt_schedule (ora : Oracle) :
    ∀ (d remaining k tc : Nat) (st : AgentState)
      (actions : List (Option JValue × JValue × String))
      (genCalls : List (List Msg × List Msg)) (toolMsgs : List Msg),
      st.halt_flag = false →
      (∀ j ms, k ≤ j → j ≤ k + d → ∃ r, ora.gen j ms = GenResult.ok r ∧
        r ≠ "" ∧ extract_tool_calls r ≠ [] ∧
        ∀ c ∈ extract_tool_calls r, hashableName (jget c "tool") = true) →
      (∀ j, k ≤ j → j < k + d → ora.haltDuring j = false) →
      ora.haltDuring (k + d) = true →
      d + 2 ≤ remaining →
      (agentLoop ora remaining k tc st actions genCalls
        toolMsgs).2.1.response = "Task halted by user." ∧
      (agentLoop ora remaining k tc st actions genCalls
        toolMsgs).2.2.outcome = Outcome.halted ∧
      (agentLoop ora remaining k tc st actions genCalls
        toolMsgs).2.2.genCalls.length = genCalls.length + d + 1 := by
  intro d
  induction d with
  | zero =>
    intro remaining k tc st actions genCalls toolMsgs hflag hgen hnd hd hrem
    obtain ⟨n, rfl⟩ : ∃ n, remaining = n + 1 := ⟨remaining - 1, by omega⟩
    obtain ⟨r, hg, hne, hex, htool⟩ :=
      hgen k (sysMsg :: windowOf st.conversation_history st.max_history)
        (le_refl k) (by omega)
    simp only [agentLoop, hflag, Bool.false_eq_true, if_false]
    rw [hg]
    simp only [if_neg hne]
    cases hcalls : extract_tool_calls r with
    | nil => exact absurd hcalls hex
    | cons c cs =>
      obtain ⟨m, rfl⟩ : ∃ m, n = m + 1 := ⟨n - 1, by omega⟩
      have hd2 : ora.haltDuring k = true := hd
      have hrt := (runTools_spec ora (c :: cs) tc st actions toolMsgs).1
      have htool2 : ∀ c2 ∈ (c :: cs), hashableName (jget c2 "tool") = true := by
        rw [← hcalls]
        exact htool
      have herr : (runTools ora tc st (c :: cs) actions
          toolMsgs).2.2.2.2 = none :=
        (runTools_ok ora (c :: cs) tc st actions toolMsgs htool2).1
      dsimp only
      rw [herr]
      dsimp only
      rw [agentLoop_halted ora m (k + 1)
        (runTools ora tc st (c :: cs) actions toolMsgs).2.1
        { model := (runTools ora tc st (c :: cs) actions toolMsgs).1.model
          max_iterations :=
            (runTools ora tc st (c :: cs) actions toolMsgs).1.max_iterations
          conversation_history :=
            (runTools ora tc st (c :: cs) actions
              toolMsgs).1.conversation_history
          halt_flag :=
            (runTools ora tc st (c :: cs) actions toolMsgs).1.halt_flag ||
              ora.haltDuring k
          current_task :=
            (runTools ora tc st (c :: cs) actions toolMsgs).1.current_task
          max_history :=
            (runTools ora tc st (c :: cs) actions toolMsgs).1.max_history }
        (runTools ora tc st (c :: cs) actions toolMsgs).2.2.1
        ((st.conversation_history,
          sysMsg :: windowOf st.conversation_history st.max_history) ::
            genCalls)
        (runTools ora tc st (c :: cs) actions toolMsgs).2.2.2.1
        (by simp [hrt, hflag, hd2])]
      refine ⟨rfl, rfl, ?_⟩
      simp
  | succ dd ih =>
    intro remaining k tc st actions genCalls toolMsgs hflag hgen hnd hd hrem
    obtain ⟨n, rfl⟩ : ∃ n, remaining = n + 1 := ⟨remaining - 1, by omega⟩
    obtain ⟨r, hg, hne, hex, htool⟩ :=
      hgen k (sysMsg :: windowOf st.conversation_history st.max_history)
        (le_refl k) (by omega)
    simp only [agentLoop, hflag, Bool.false_eq_true, if_false]
    rw [hg]
    simp only [if_neg hne]
    cases hcalls : extract_tool_calls r with
    | nil => exact absurd hcalls hex
    | cons c cs =>
      have hrt := (runTools_spec ora (c :: cs) tc st actions toolMsgs).1
      have hoff : ora.haltDuring k = false := hnd k (le_refl k) (by omega)
      have htool2 : ∀ c2 ∈ (c :: cs), hashableName (jget c2 "tool") = true := by
        rw [← hcalls]
        exact htool
      have herr : (runTools ora tc st (c :: cs) actions
          toolMsgs).2.2.2.2 = none :=
        (runTools_ok ora (c :: cs) tc st actions toolMsgs htool2).1
      have hgen2 : ∀ j ms, k + 1 ≤ j → j ≤ (k + 1) + dd →
          ∃ r2, ora.gen j ms = GenResult.ok r2 ∧ r2 ≠ "" ∧
            extract_tool_calls r2 ≠ [] ∧
            ∀ c2 ∈ extract_tool_calls r2,
              hashableName (jget c2 "tool") = true := by
        intro j ms hj1 hj2
        exact hgen j ms (by omega) (by omega)
      have hnd2 : ∀ j, k + 1 ≤ j → j < (k + 1) + dd →
          ora.haltDuring j = false := by
        intro j hj1 hj2
        exact hnd j (by omega) (by omega)
      have hd2 : ora.haltDuring ((k + 1) + dd) = true := by
        rw [show (k + 1) + dd = k + (dd + 1) from by omega]
        exact hd
      have hres := ih n (k + 1)
        (runTools ora tc st (c :: cs) actions toolMsgs).2.1
        { model := (runTools ora tc st (c :: cs) actions toolMsgs).1.model
          max_iterations :=
            (runTools ora tc st (c :: cs) actions toolMsgs).1.max_iterations
          conversation_history :=
            (runTools ora tc st (c :: cs) actions
              toolMsgs).1.conversation_history
          halt_flag :=
            (runTools ora tc st (c :: cs) actions toolMsgs).1.halt_flag ||
              ora.haltDuring k
          current_task :=
            (runTools ora tc st (c :: cs) actions toolMsgs).1.current_task
          max_history :=
            (runTools ora tc st (c :: cs) actions toolMsgs).1.max_history }
        (runTools ora tc st (c :: cs) actions toolMsgs).2.2.1
        ((st.conversation_history,
          sysMsg :: windowOf st.conversation_history st.max_history) ::
            genCalls)
        (runTools ora tc st (c :: cs) actions toolMsgs).2.2.2.1
        (by simp [hrt, hflag, hoff]) hgen2 hnd2 hd2 (by omega)
      dsimp only
      rw [herr]
      dsimp only
      refine ⟨hres.1, hres.2.1, ?_⟩
      rw [hres.2.2]
      simp
      try omega

/-- C10: `process_task` clears the cancellation flag as its first action,
so its behaviour is independent of the flag value at entry (a `halt()`
issued before the call never halts the newly started task); and a
`halt()` arriving while iteration `d` runs — with the iterations through
`d` each issuing tool calls whose dispatch does not raise — takes
effect exactly at the next iteration boundary: the call returns the
partial result "Task halted by user." after exactly `d + 1` generation
calls, issuing none for the following iteration. -/
theorem halt_cleared_and_boundary :
    (∀ (ora : Oracle) (st : AgentState) (task : String) (b : Bool),
      process_task ora { st with halt_flag := b } task =
        process_task ora st task) ∧
    (∀ (ora : Oracle) (st : AgentState) (task : String) (d : Nat),
      (∀ j ms, j ≤ d → ∃ r, ora.gen j ms = GenResult.ok r ∧ r ≠ "" ∧
        extract_tool_calls r ≠ [] ∧
        ∀ c ∈ extract_tool_calls r, hashableName (jget c "tool") = true) →
      (∀ j, j < d → ora.haltDuring j = false) →
      ora.haltDuring d = true →
      d + 2 ≤ st.max_iterations →
      (process_task ora st task).2.1.response = "Task halted by user." ∧
      (process_task ora st task).2.2.outcome = Outcome.halted ∧
      (process_task ora st task).2.2.genCalls.length = d + 1) := by
  constructor
  · intro ora st task b
    rfl
  · intro ora st task d hgen hnd hd hrem
    have hd0 : ora.haltDuring (0 + d) = true := by
      rw [show 0 + d = d from by omega]
      exact hd
    have h := agentLoop_halt_schedule ora d st.max_iterations 0 0
      { st with
        halt_flag := false
        current_task := some task
        conversation_history := st.conversation_history ++
          [ { role := "user", content := task } ] } [] [] []
      rfl (fun j ms _ hj2 => hgen j ms (by omega))
      (fun j _ hj2 => hnd j (by omega)) hd0 hrem
    exact ⟨h.1, h.2.1, h.2.2.trans (by simp)⟩

/-- Witness for C10: with a halt landing during iteration 0 of a fresh
agent (and with the flag forced high before the call), the task halts at
the next boundary after exactly one generation call. -/
theorem halt_cleared_and_boundary_witness :
    process_task oracleHaltAt0 { newAgent with halt_flag := true } "go" =
      process_task oracleHaltAt0 newAgent "go" ∧
    (process_task oracleHaltAt0 newAgent "go").2.1.response =
      "Task halted by user." ∧
    (process_task oracleHaltAt0 newAgent "go").2.2.outcome =
      Outcome.halted ∧
    (process_task oracleHaltAt0 newAgent "go").2.2.genCalls.length = 1 := by
  have h1 : ∀ j ms, j ≤ 0 → ∃ r, oracleHaltAt0.gen j ms = GenResult.ok r ∧
      r ≠ "" ∧ extract_tool_calls r ≠ [] ∧
      ∀ c ∈ extract_tool_calls r, hashableName (jget c "tool") = true := by
    intro j ms _
    refine ⟨toolText, rfl, by decide, ?_, ?_⟩
    · rw [show extract_tool_calls toolText = [ toolVal ] from rfl]
      exact List.cons_ne_nil _ _
    · rw [show extract_tool_calls toolText = [ toolVal ] from rfl]
      intro c hc
      rcases List.mem_cons.mp hc with rfl | h2
      · rfl
      · cases h2
  have h2 : ∀ j, j < 0 → oracleHaltAt0.haltDuring j = false := by
    intro j hj
    exact absurd hj (Nat.not_lt_zero j)
  have h := halt_cleared_and_boundary.2 oracleHaltAt0 newAgent "go" 0
    h1 h2 rfl (by decide)
  exact ⟨halt_cleared_and_boundary.1 oracleHaltAt0 newAgent "go" true,
    h.1, h.2.1, h.2.2⟩

theorem agentLoop_history (ora : Oracle) :
    ∀ (remaining k tc : Nat) (st : AgentState)
      (actions : List (Option JValue × JValue × String))
      (genCalls : List (List Msg × List Msg)) (toolMsgs : List Msg),
      ∃ L, (agentLoop ora remaining k tc st actions genCalls
          toolMsgs).1.conversation_history = st.conversation_history ++ L ∧
        (∀ m ∈ L, m.role = "user" ∨ m.role = "assistant") := by
  intro remaining
  induction remaining with
  | zero =>
    intro k tc st actions genCalls toolMsgs
    exact ⟨[], by simp [agentLoop], by simp⟩
  | succ n ih =>
    intro k tc st actions genCalls toolMsgs
    by_cases hflag : st.halt_flag = true
    · rw [agentLoop_halted ora n k tc st actions genCalls toolMsgs hflag]
      exact ⟨[], by simp, by simp⟩
    · have hflag2 : st.halt_flag = false := by
        rw [Bool.not_eq_true] at hflag
        exact hflag
      simp only [agentLoop, hflag2, Bool.false_eq_true, if_false]
      cases hg : ora.gen k
        (sysMsg :: windowOf st.conversation_history st.max_history) with
      | err e =>
        exact ⟨[], by simp, by simp⟩
      | ok response =>
        by_cases hresp : response = ""
        · subst hresp
          simp only [if_pos rfl]
          exact ⟨[], by simp, by simp⟩
        · simp only [if_neg hresp]
          cases hcalls : extract_tool_calls response with
          | nil =>
            refine ⟨[ { role := "assistant", content := response } ],
              by simp, ?_⟩
            intro m hm
            rcases List.mem_cons.mp hm with rfl | hm2
            · exact Or.inr rfl
            · cases hm2
          | cons c cs =>
            obtain ⟨hfl, hmi, hmh, ⟨L1, hL1, hT1, hS1⟩⟩ :=
              runTools_spec ora (c :: cs) tc st actions toolMsgs
            dsimp only
            cases herr : (runTools ora tc st (c :: cs) actions
                toolMsgs).2.2.2.2 with
            | some e2 =>
              refine ⟨L1, ?_, ?_⟩
              · exact hL1
              · intro m hm
                exact Or.inl (hS1 m hm).1
            | none =>
              obtain ⟨L2, hh2, hr2⟩ := ih (k + 1)
                (runTools ora tc st (c :: cs) actions toolMsgs).2.1
                { (runTools ora tc st (c :: cs) actions toolMsgs).1 with
                  halt_flag :=
                    (runTools ora tc st (c :: cs) actions
                      toolMsgs).1.halt_flag || ora.haltDuring k }
                (runTools ora tc st (c :: cs) actions toolMsgs).2.2.1
                ((st.conversation_history,
                  sysMsg :: windowOf st.conversation_history st.max_history) ::
                    genCalls)
                (runTools ora tc st (c :: cs) actions toolMsgs).2.2.2.1
              refine ⟨L1 ++ L2, ?_, ?_⟩
              · have hmid : (runTools ora tc st (c :: cs) actions
                    toolMsgs).1.conversation_history ++ L2 =
                    st.conversation_history ++ (L1 ++ L2) := by
                  rw [hL1, List.append_assoc]
                exact hh2.trans hmid
              · intro m hm
                rcases List.mem_append.mp hm with hm1 | hm2
                · exact Or.inl (hS1 m hm1).1
                · exact hr2 m hm2

theorem agentLoop_toolMsgs (ora : Oracle) :
    ∀ (remaining k tc : Nat) (st : AgentState)
      (actions : List (Option JValue × JValue × String))
      (genCalls : List (List Msg × List Msg)) (toolMsgs : List Msg),
      (∀ m ∈ toolMsgs, ToolShape m ∧ m ∈ st.conversation_history) →
      ∀ m ∈ (agentLoop ora remaining k tc st actions genCalls
        toolMsgs).2.2.toolMsgs,
        ToolShape m ∧ m ∈ (agentLoop ora remaining k tc st actions genCalls
          toolMsgs).1.conversation_history := by
  intro remaining
  induction remaining with
  | zero =>
    intro k tc st actions genCalls toolMsgs hacc m hm
    simp only [agentLoop] at hm ⊢
    exact hacc m (by simpa using hm)
  | succ n ih =>
    intro k tc st actions genCalls toolMsgs hacc m hm
    by_cases hflag : st.halt_flag = true
    · rw [agentLoop_halted ora n k tc st actions genCalls toolMsgs hflag]
        at hm ⊢
      exact hacc m (by simpa using hm)
    · have hflag2 : st.halt_flag = false := by
        rw [Bool.not_eq_true] at hflag
        exact hflag
      simp only [agentLoop, hflag2, Bool.false_eq_true, if_false] at hm ⊢
      revert hm
      cases hg : ora.gen k
        (sysMsg :: windowOf st.conversation_history st.max_history) with
      | err e =>
        intro hm
        exact hacc m (by simpa using hm)
      | ok response =>
        by_cases hresp : response = ""
        · subst hresp
          simp only [if_pos rfl]
          intro hm
          exact hacc m (by simpa using hm)
        · simp only [if_neg hresp]
          cases hcalls : extract_tool_calls response with
          | nil =>
            intro hm
            have := hacc m (by simpa using hm)
            exact ⟨this.1, by simp [this.2]⟩
          | cons c cs =>
            obtain ⟨hfl, hmi, hmh, ⟨L1, hL1, hT1, hS1⟩⟩ :=
              runTools_spec ora (c :: cs) tc st actions toolMsgs
            dsimp only
            cases herr : (runTools ora tc st (c :: cs) actions
                toolMsgs).2.2.2.2 with
            | some e2 =>
              intro hm
              have hm2 : m ∈ (runTools ora tc st (c :: cs) actions
                  toolMsgs).2.2.2.1.reverse := hm
              rw [List.mem_reverse, hT1] at hm2
              rcases List.mem_append.mp hm2 with hm3 | hm4
              · have hmem : m ∈ L1 := by simpa using hm3
                refine ⟨hS1 m hmem, ?_⟩
                show m ∈ (runTools ora tc st (c :: cs) actions
                  toolMsgs).1.conversation_history
                rw [hL1]
                exact List.mem_append_right _ hmem
              · have hmm := hacc m hm4
                refine ⟨hmm.1, ?_⟩
                show m ∈ (runTools ora tc st (c :: cs) actions
                  toolMsgs).1.conversation_history
                rw [hL1]
                exact List.mem_append_left _ hmm.2
            | none =>
              intro hm
              refine ih (k + 1)
                (runTools ora tc st (c :: cs) actions toolMsgs).2.1
                { (runTools ora tc st (c :: cs) actions toolMsgs).1 with
                  halt_flag :=
                    (runTools ora tc st (c :: cs) actions
                      toolMsgs).1.halt_flag || ora.haltDuring k }
                (runTools ora tc st (c :: cs) actions toolMsgs).2.2.1
                ((st.conversation_history,
                  sysMsg :: windowOf st.conversation_history st.max_history) ::
                    genCalls)
                (runTools ora tc st (c :: cs) actions toolMsgs).2.2.2.1
                ?_ m hm
              intro m2 hm2
              rw [hT1] at hm2
              rcases List.mem_append.mp hm2 with hm3 | hm4
              · have hmem : m2 ∈ L1 := by simpa using hm3
                refine ⟨hS1 m2 hmem, ?_⟩
                show m2 ∈ (runTools ora tc st (c :: cs) actions
                  toolMsgs).1.conversation_history
                rw [hL1]
                exact List.mem_append_right _ hmem
              · have := hacc m2 hm4
                refine ⟨this.1, ?_⟩
                show m2 ∈ (runTools ora tc st (c :: cs) actions
                  toolMsgs).1.conversation_history
                rw [hL1]
                exact List.mem_append_left _ this.2

theorem agentLoop_genCalls_shape (ora : Oracle) (N : Nat) (H0 : List Msg) :
    ∀ (remaining k tc : Nat) (st : AgentState)
      (actions : List (Option JValue × JValue × String))
      (genCalls : List (List Msg × List Msg)) (toolMsgs : List Msg),
      st.max_history = N →
      (∃ L0, st.conversation_history = H0 ++ L0 ∧
        ∀ m ∈ L0, m.role = "user") →
      (∀ e ∈ genCalls, e.2 = sysMsg :: windowOf e.1 N ∧
        ∃ L, e.1 = H0 ++ L ∧ ∀ m ∈ L, m.role = "user") →
      ∀ e ∈ (agentLoop ora remaining k tc st actions genCalls
        toolMsgs).2.2.genCalls,
        e.2 = sysMsg :: windowOf e.1 N ∧
        ∃ L, e.1 = H0 ++ L ∧ ∀ m ∈ L, m.role = "user" := by
  intro remaining
  induction remaining with
  | zero =>
    intro k tc st actions genCalls toolMsgs hN hbase hacc e he
    simp only [agentLoop] at he
    exact hacc e (by simpa using he)
  | succ n ih =>
    intro k tc st actions genCalls toolMsgs hN hbase hacc e he
    by_cases hflag : st.halt_flag = true
    · rw [agentLoop_halted ora n k tc st actions genCalls toolMsgs hflag]
        at he
      exact hacc e (by simpa using he)
    · have hflag2 : st.halt_flag = false := by
        rw [Bool.not_eq_true] at hflag
        exact hflag
      have hacc1 : ∀ e ∈ ((st.conversation_history,
          sysMsg :: windowOf st.conversation_history st.max_history) ::
            genCalls),
          e.2 = sysMsg :: windowOf e.1 N ∧
          ∃ L, e.1 = H0 ++ L ∧ ∀ m ∈ L, m.role = "user" := by
        intro e2 he2
        rcases List.mem_cons.mp he2 with rfl | he3
        · exact ⟨by rw [hN], hbase⟩
        · exact hacc e2 he3
      simp only [agentLoop, hflag2, Bool.false_eq_true, if_false] at he
      revert he
      cases hg : ora.gen k
        (sysMsg :: windowOf st.conversation_history st.max_history) with
      | err e2 =>
        intro he
        exact hacc1 e (List.mem_cons.mpr (Or.symm (show e ∈ genCalls ∨
          e = (st.conversation_history,
            sysMsg :: windowOf st.conversation_history st.max_history) by
              simpa using he)))
      | ok response =>
        by_cases hresp : response = ""
        · subst hresp
          simp only [if_pos rfl]
          intro he
          exact hacc1 e (List.mem_cons.mpr (Or.symm (show e ∈ genCalls ∨
            e = (st.conversation_history,
              sysMsg :: windowOf st.conversation_history st.max_history) by
                simpa using he)))
        · simp only [if_neg hresp]
          cases hcalls : extract_tool_calls response with
          | nil =>
            intro he
            exact hacc1 e (List.mem_cons.mpr (Or.symm (show e ∈ genCalls ∨
              e = (st.conversation_history,
                sysMsg :: windowOf st.conversation_history st.max_history) by
                  simpa using he)))
          | cons c cs =>
            obtain ⟨hfl, hmi, hmh, ⟨L1, hL1, hT1, hS1⟩⟩ :=
              runTools_spec ora (c :: cs) tc st actions toolMsgs
            dsimp only
            cases herr : (runTools ora tc st (c :: cs) actions
                toolMsgs).2.2.2.2 with
            | some e2 =>
              intro he
              exact hacc1 e (List.mem_cons.mpr (Or.symm (show e ∈ genCalls ∨
                e = (st.conversation_history,
                  sysMsg :: windowOf st.conversation_history
                    st.max_history) by simpa using he)))
            | none =>
              intro he
              obtain ⟨L0, hL0, hR0⟩ := hbase
              have hN2 : ({ (runTools ora tc st (c :: cs) actions
                  toolMsgs).1 with
                  halt_flag := (runTools ora tc st (c :: cs) actions
                    toolMsgs).1.halt_flag || ora.haltDuring k } :
                  AgentState).max_history = N := by
                show (runTools ora tc st (c :: cs) actions
                  toolMsgs).1.max_history = N
                rw [hmh, hN]
              have hbase2 : ∃ L0b, ({ (runTools ora tc st (c :: cs) actions
                  toolMsgs).1 with
                  halt_flag := (runTools ora tc st (c :: cs) actions
                    toolMsgs).1.halt_flag || ora.haltDuring k } :
                  AgentState).conversation_history = H0 ++ L0b ∧
                  ∀ m ∈ L0b, m.role = "user" := by
                refine ⟨L0 ++ L1, ?_, ?_⟩
                · show (runTools ora tc st (c :: cs) actions
                    toolMsgs).1.conversation_history = H0 ++ (L0 ++ L1)
                  rw [hL1, hL0, List.append_assoc]
                · intro m hm
                  rcases List.mem_append.mp hm with h1 | h2
                  · exact hR0 m h1
                  · exact (hS1 m h2).1
              exact ih (k + 1)
                (runTools ora tc st (c :: cs) actions toolMsgs).2.1
                { (runTools ora tc st (c :: cs) actions toolMsgs).1 with
                  halt_flag := (runTools ora tc st (c :: cs) actions
                    toolMsgs).1.halt_flag || ora.haltDuring k }
                (runTools ora tc st (c :: cs) actions toolMsgs).2.2.1
                ((st.conversation_history,
                  sysMsg :: windowOf st.conversation_history st.max_history) ::
                    genCalls)
                (runTools ora tc st (c :: cs) actions toolMsgs).2.2.2.1
                hN2 hbase2 hacc1 e he

/-- C6: during marker-based scanning extraction never raises and a
truncated trailing candidate is silently dropped (one good followed by
one truncated invocation yields exactly one), but on a parse failure the
scan resumes one position past the candidate TERMINATOR, not one past
the marker as the spec says: on `nestedBadText` the code finds nothing
while the spec resumption rule finds the nested inner invocation. -/
theorem marker_resume_counterexample :
    extract_tool_calls nestedBadText = [] ∧
    spec_resume_extract nestedBadText = [nestedInnerVal] := ⟨rfl, rfl⟩

/-- C6 amended: the marker scan drops a failed candidate whole (resuming
after its matching terminator) and silently drops an unbalanced tail;
one well-formed invocation followed by a truncated one yields exactly
that one invocation, and a lone truncated candidate yields none. -/
theorem marker_scan_silent_drop :
    extract_tool_calls goodThenTruncated = [toolVal] ∧
    extract_tool_calls truncatedOnly = [] := ⟨rfl, rfl⟩

/-- A dict-valued tool name extracted from valid JSON raises a
`TypeError` out of the dispatch lookup: the task exits through the
except branch after exactly one generation call, preempting even a halt
that lands during the same iteration. -/
theorem tool_raise_errors :
    (process_task oracleDictTool newAgent "go").2.1.response =
      "I encountered an error: unhashable type: \x27dict\x27" ∧
    (process_task oracleDictTool newAgent "go").2.2.outcome =
      Outcome.errored ∧
    (process_task oracleDictTool newAgent "go").2.2.genCalls.length = 1 :=
  ⟨rfl, rfl, rfl⟩

theorem dictGet_dictSet_ne (t1 t2 : String) (hne : t1 ≠ t2)
    (v : AgentState) :
    ∀ ta : List (String × AgentState),
      dictGet (dictSet ta t1 v) t2 = dictGet ta t2 := by
  intro ta
  induction ta with
  | nil =>
    simp [dictGet, dictSet, hne]
  | cons p rest ih =>
    obtain ⟨k, w⟩ := p
    by_cases hk : k = t1
    · subst hk
      simp [dictGet, dictSet, hne]
    · simp [dictGet, dictSet, hk, ih]

theorem dictGet_dictSet_self (t1 : String) (v : AgentState) :
    ∀ ta : List (String × AgentState),
      dictGet (dictSet ta t1 v) t1 = some v := by
  intro ta
  induction ta with
  | nil => simp [dictGet, dictSet]
  | cons p rest ih =>
    obtain ⟨k, w⟩ := p
    by_cases hk : k = t1
    · subst hk
      simp [dictGet, dictSet]
    · simp [dictGet, dictSet, hk, ih]

/-- C9: session noninterference holds through the live per-thread
mechanism: every thread identifier owns its own agent — hence its own
history window and cancellation flag, created fresh on first use;
processing a command for one identifier rebinds exactly that
identifier's agent and leaves every other identifier's observed history
and cancellation flag unchanged, as does routing a halt to it. -/
theorem session_isolation (ora : Oracle)
    (ta : List (String × AgentState)) (t1 t2 command : String)
    (hne : t1 ≠ t2) :
    threadHistory (processForThread ora ta t1 command).2 t2 =
      threadHistory ta t2 ∧
    threadHalt (processForThread ora ta t1 command).2 t2 =
      threadHalt ta t2 ∧
    threadHistory (haltThread ta t1) t2 = threadHistory ta t2 ∧
    threadHalt (haltThread ta t1) t2 = threadHalt ta t2 ∧
    threadHistory (processForThread ora ta t1 command).2 t1 =
      (process_task ora (fetchThreadAgent ta t1).1
        command).1.conversation_history := by
  have hget : dictGet (processForThread ora ta t1 command).2 t2 =
      dictGet ta t2 := by
    show dictGet (dictSet (fetchThreadAgent ta t1).2 t1
      (process_task ora (fetchThreadAgent ta t1).1 command).1) t2 =
        dictGet ta t2
    rw [dictGet_dictSet_ne t1 t2 hne _ _]
    unfold fetchThreadAgent
    cases hf : dictGet ta t1 with
    | some a => rfl
    | none =>
      dsimp only
      rw [dictGet_dictSet_ne t1 t2 hne newAgent ta]
  have hget2 : dictGet (haltThread ta t1) t2 = dictGet ta t2 := by
    unfold haltThread
    cases hf : dictGet ta t1 with
    | some a =>
      dsimp only
      rw [dictGet_dictSet_ne t1 t2 hne (halt a) ta]
    | none => rfl
  have hget3 : dictGet (processForThread ora ta t1 command).2 t1 =
      some (process_task ora (fetchThreadAgent ta t1).1 command).1 := by
    show dictGet (dictSet (fetchThreadAgent ta t1).2 t1
      (process_task ora (fetchThreadAgent ta t1).1 command).1) t1 =
        some (process_task ora (fetchThreadAgent ta t1).1 command).1
    rw [dictGet_dictSet_self]
  refine ⟨?_, ?_, ?_, ?_, ?_⟩
  · unfold threadHistory
    rw [hget]
  · unfold threadHalt
    rw [hget]
  · unfold threadHistory
    rw [hget2]
  · unfold threadHalt
    rw [hget2]
  · unfold threadHistory
    rw [hget3]

theorem session_isolation_witness :
    ("main" : String) ≠ "aux" ∧
    threadHistory (processForThread oracleEcho [] "main" "do something").2
      "aux" = threadHistory ([] : List (String × AgentState)) "aux" ∧
    threadHalt (haltThread ([] : List (String × AgentState)) "main")
      "aux" = threadHalt ([] : List (String × AgentState)) "aux" := by
  have h := session_isolation oracleEcho [] "main" "aux" "do something"
    (by decide)
  exact ⟨by decide, h.1, h.2.2.2.1⟩

theorem filterMap_all_some {α β : Type} (f : α → Option β) :
    ∀ l : List α, (∀ a ∈ l, (f a).isSome) →
      (l.filterMap f).length = l.length := by
  intro l
  induction l with
  | nil => intro _; rfl
  | cons a rest ih =>
    intro h
    obtain ⟨b, hb⟩ := Option.isSome_iff_exists.mp (h a (List.mem_cons_self a rest))
    rw [List.filterMap_cons, hb, List.length_cons, List.length_cons,
      ih (fun x hx => h x (List.mem_cons_of_mem a hx))]

/-- C5: fenced blocks take strict precedence: whenever the fenced-block
pass finds at least one block and every found block parses as an object
carrying `tool` and `parameters` keys, extraction returns exactly the
parsed blocks in order of appearance (the marker-based brace scan is
never consulted), their count equals the block count, and each returned
invocation carries both keys. -/
theorem fenced_precedence (response : String) (blocks : List String)
    (hb : findFencedBlocks (response.data.length + 1) response.data = blocks)
    (hne : blocks ≠ [])
    (hok : ∀ b ∈ blocks, ∃ v, loads b = some v ∧
      (jget v "tool").isSome ∧ (jget v "parameters").isSome) :
    extract_tool_calls response = blocks.filterMap loads ∧
    (extract_tool_calls response).length = blocks.length ∧
    ∀ v ∈ extract_tool_calls response,
      (jget v "tool").isSome ∧ (jget v "parameters").isSome := by
  have hsome : ∀ b ∈ blocks, (loads b).isSome := by
    intro b hbm
    obtain ⟨v, hv, _, _⟩ := hok b hbm
    rw [hv]
    rfl
  have hlen : (blocks.filterMap loads).length = blocks.length :=
    filterMap_all_some loads blocks hsome
  have hnonempty : (blocks.filterMap loads).isEmpty = false := by
    cases hcase : blocks.filterMap loads with
    | nil =>
      exfalso
      apply hne
      cases blocks with
      | nil => rfl
      | cons b rest =>
        exfalso
        have := hlen
        rw [hcase] at this
        simp at this
    | cons x xs => rfl
  have hext : extract_tool_calls response = blocks.filterMap loads := by
    unfold extract_tool_calls
    rw [hb]
    simp only [hnonempty, Bool.false_eq_true, if_false]
  refine ⟨hext, by rw [hext, hlen], ?_⟩
  intro v hv
  rw [hext] at hv
  obtain ⟨b, hbm, hload⟩ := List.mem_filterMap.mp hv
  obtain ⟨v2, hv2, ht, hp⟩ := hok b hbm
  rw [hload] at hv2
  cases hv2
  exact ⟨ht, hp⟩

set_option maxRecDepth 10000 in
theorem fenced_precedence_witness :
    extract_tool_calls fencedThree = fencedThreeVals ∧
    (extract_tool_calls fencedThree).length = 3 := by
  have hok : ∀ b ∈ ([ "\x7b\"tool\": \"a\", \"parameters\": \x7b\x7d\x7d",
      "\x7b\"tool\": \"b\", \"parameters\": \x7b\x7d\x7d",
      "\x7b\"tool\": \"c\", \"parameters\": \x7b\x7d\x7d" ] : List String),
      ∃ v, loads b = some v ∧ (jget v "tool").isSome ∧
        (jget v "parameters").isSome := by
    intro b hb
    simp only [List.mem_cons, List.not_mem_nil, or_false] at hb
    rcases hb with rfl | rfl | rfl
    · exact ⟨JValue.jobj [ ("tool", JValue.jstr "a"),
        ("parameters", JValue.jobj []) ], rfl, rfl, rfl⟩
    · exact ⟨JValue.jobj [ ("tool", JValue.jstr "b"),
        ("parameters", JValue.jobj []) ], rfl, rfl, rfl⟩
    · exact ⟨JValue.jobj [ ("tool", JValue.jstr "c"),
        ("parameters", JValue.jobj []) ], rfl, rfl, rfl⟩
  have h := fenced_precedence fencedThree
    [ "\x7b\"tool\": \"a\", \"parameters\": \x7b\x7d\x7d",
      "\x7b\"tool\": \"b\", \"parameters\": \x7b\x7d\x7d",
      "\x7b\"tool\": \"c\", \"parameters\": \x7b\x7d\x7d" ]
    rfl (List.cons_ne_nil _ _) hok
  exact ⟨h.1.trans rfl, h.2.1.trans rfl⟩

/-- C7: tool results are NOT appended with role `tool_result`: the loop
appends them with role `user` (content `TOOL_RESULT(name): payload`).
Running one tool call end to end, the trace records exactly one
tool-result message with role `user`, and the final history contains no
message whose role is `tool_result`. -/
theorem tool_result_role_counterexample :
    (process_task oracleOneTool newAgent "do").2.2.toolMsgs =
      [ { role := "user", content := "TOOL_RESULT(t): RES" } ] ∧
    (process_task oracleOneTool newAgent "do").1.conversation_history =
      [ { role := "user", content := "do" },
        { role := "user", content := "TOOL_RESULT(t): RES" },
        { role := "assistant", content := "done" } ] ∧
    ((process_task oracleOneTool newAgent
      "do").1.conversation_history.all
        (fun m => !(m.role == "tool_result"))) = true :=
  ⟨rfl, rfl, rfl⟩

/-- C7 amended: every tool result the loop records is appended to the
conversation history as a distinct message of role `user` whose content
is `TOOL_RESULT(name): payload` with the payload run through the
truncation rule; payloads of at most 500 characters pass unmodified and
longer ones are cut to 500 characters with the literal `...TRUNCATED`
marker appended. -/
theorem tool_results_appended_truncated (ora : Oracle) (st : AgentState)
    (task : String) :
    (∀ m ∈ (process_task ora st task).2.2.toolMsgs,
      ToolShape m ∧
      m ∈ (process_task ora st task).1.conversation_history) ∧
    (∀ p : String, p.length ≤ 500 → truncatePayload p = p) ∧
    (∀ p : String, 500 < p.length →
      truncatePayload p = String.mk (p.data.take 500) ++ "...TRUNCATED") := by
  refine ⟨?_, ?_, ?_⟩
  · intro m hm
    exact agentLoop_toolMsgs ora st.max_iterations 0 0
      { st with
        halt_flag := false
        current_task := some task
        conversation_history := st.conversation_history ++
          [ { role := "user", content := task } ] }
      [] [] [] (fun m2 hm2 => absurd hm2 (List.not_mem_nil m2)) m hm
  · intro p hp
    unfold truncatePayload
    rw [if_neg (by omega)]
  · intro p hp
    unfold truncatePayload
    rw [if_pos hp]

set_option maxRecDepth 10000 in
theorem tool_results_appended_truncated_witness :
    (ToolShape { role := "user", content := "TOOL_RESULT(t): RES" } ∧
      ({ role := "user", content := "TOOL_RESULT(t): RES" } : Msg) ∈
        (process_task oracleOneTool newAgent "do").1.conversation_history) ∧
    truncatePayload "ab" = "ab" := by
  have h := tool_results_appended_truncated oracleOneTool newAgent "do"
  refine ⟨h.1 { role := "user", content := "TOOL_RESULT(t): RES" } ?_,
    h.2.1 "ab" (by decide)⟩
  exact List.mem_singleton_self _

/-- C8: at every generation call the message list is the single system
prompt followed by the history window `history[-max_history:]`: the
window holds at most `max_history` non-system messages, the oldest
history entries beyond the window are dropped first (the window is the
drop of all but the last `max_history`), and the one leading system
message is always present and outside that count (given the agent
history holds no system messages, which the loop preserves). -/
theorem history_window_bound (ora : Oracle) (st : AgentState)
    (task : String)
    (hsys : ∀ m ∈ st.conversation_history, m.role ≠ "system") :
    ∀ e ∈ (process_task ora st task).2.2.genCalls,
      e.2 = sysMsg :: windowOf e.1 st.max_history ∧
      e.2.head? = some sysMsg ∧
      e.2.tail.length ≤ st.max_history ∧
      (∀ m ∈ e.2.tail, m.role ≠ "system") ∧
      e.2.tail = e.1.drop (e.1.length - st.max_history) := by
  intro e he
  have key := agentLoop_genCalls_shape ora st.max_history
    (st.conversation_history ++ [ { role := "user", content := task } ])
    st.max_iterations 0 0
    { st with
      halt_flag := false
      current_task := some task
      conversation_history := st.conversation_history ++
        [ { role := "user", content := task } ] }
    [] [] [] rfl ⟨[], by simp, by simp⟩
    (fun e2 he2 => absurd he2 (List.not_mem_nil e2)) e he
  obtain ⟨heq, L, hL, hR⟩ := key
  have htail : e.2.tail = windowOf e.1 st.max_history := by
    rw [heq]
    rfl
  have hmemtail : ∀ m ∈ e.2.tail, m ∈ e.1 := by
    intro m hm
    rw [htail] at hm
    exact (List.drop_sublist _ _).mem hm
  refine ⟨heq, by rw [heq]; rfl, ?_, ?_, ?_⟩
  · rw [htail]
    unfold windowOf
    rw [List.length_drop]
    omega
  · intro m hm
    have hme := hmemtail m hm
    rw [hL] at hme
    rcases List.mem_append.mp hme with h1 | h2
    · rcases List.mem_append.mp h1 with h3 | h4
      · exact hsys m h3
      · have : m = { role := "user", content := task } := by simpa using h4
        rw [this]
        simp
    · rw [hR m h2]
      simp
  · rw [htail]
    rfl

set_option maxRecDepth 10000 in
theorem history_window_bound_witness :
    (sysMsg :: windowOf [ { role := "user", content := "do" } ] 6).head? =
      some sysMsg ∧
    (sysMsg :: windowOf
      [ { role := "user", content := "do" } ] 6).tail.length ≤ 6 := by
  have h := history_window_bound oracleOneTool newAgent "do"
    (fun m hm => absurd hm (List.not_mem_nil m))
    ( [ { role := "user", content := "do" } ],
      sysMsg :: windowOf [ { role := "user", content := "do" } ] 6 )
    (List.mem_cons_self _ _)
  exact ⟨h.2.1, h.2.2.1⟩
